import Mathlib

/-!
Verification of the `quicklime` event dispatcher (`src/index.ts`).

The source is a single TypeScript class `Quicklime` with a `Set` of callbacks,
a `last` field, registry operations `on` / `once` / `off` / `clear` / `next`,
and a `dispatch` method that iterates the live `Set`, fires each callback
inside a fire-and-forget `async` IIFE (so the callback's synchronous portion
runs immediately, any synchronous throw becomes a per-invocation rejected
promise, and the engine never awaits), and breaks out of the loop as soon as
the dispatch-local `propagationStopped` flag is observed set.

The embedding models:
  * callback bodies as lists of atomic actions (call `stopPropagation`,
    throw, call `off`, suspend at an `await` point);
  * the registry as the observable state of a JS `Set`: an insertion-ordered
    entry list with tombstones (`delete` marks an entry dead, a dead entry is
    skipped by live iterators, `add` of an absent element appends);
  * the single-threaded event loop: `dispatch` runs every reached callback's
    synchronous prefix in registry order, suspended continuations go to a
    FIFO microtask queue that runs only after `dispatch` returned (`drain`);
  * observable behaviour as a trace: engine invocations, a once-wrapper
    calling its inner callback, completions, `off` calls, promise
    resolutions (`next`), and errors routed to the host's rejection
    diagnostics (`sink`, carrying the original error).
-/

/-- Dispatched values (the TS generic `Type` instantiated at an abstract
countable value type). -/
abbrev Val := Nat

/-- Identity of a callback handle (JS function identity). -/
abbrev CbId := Nat

/-- Identity of an error value (stands for the error object, hence also for
its stack trace). -/
abbrev ErrId := Nat

/-- Identity of a promise created by `next`. -/
abbrev PromId := Nat

/-- One atomic step of a callback body. -/
inductive Act where
  /-- Call the event's `stopPropagation` capability. -/
  | stopProp : Act
  /-- Throw the error `e`. -/
  | throwErr : ErrId → Act
  /-- Call `off c` on the dispatcher. -/
  | offCb : CbId → Act
  /-- An `await` point: yield control, the remaining actions become the
  continuation of this callback, queued as a microtask. -/
  | suspend : Act
deriving DecidableEq

/-- The behaviour bound to a callback identity. -/
inductive CbBody where
  /-- An ordinary callback with the given body. -/
  | plain : List Act → CbBody
  /-- The wrapper generated by `once` around the callback `h`: it calls `h`
  with the event and then calls `off` on itself (`src/index.ts` lines
  44-50). -/
  | wrapper : CbId → CbBody
  /-- The handle registered by `next`: it resolves the promise `p` with the
  event (`src/index.ts` lines 75-79). -/
  | resolver : PromId → CbBody
deriving DecidableEq

/-- Assignment of behaviours to callback identities. -/
structure Env where
  body : CbId → CbBody

/-- Observable trace events. -/
inductive TraceEv where
  /-- The dispatch engine invoked the registered handle `c` with event view
  `{data, last}`. -/
  | invoked : CbId → Val → Option Val → TraceEv
  /-- A once-wrapper called its wrapped inner callback `h` with the event
  view. -/
  | innerInvoked : CbId → Val → Option Val → TraceEv
  /-- The behaviour of callback `c` ran to normal completion. -/
  | completed : CbId → TraceEv
  /-- `off c` was called. -/
  | offEv : CbId → TraceEv
  /-- The error `e` was caught at the boundary of one fire-and-forget
  invocation and routed to the host's rejection diagnostics, carrying the
  original error object (hence its stack trace). -/
  | sink : ErrId → TraceEv
  /-- The promise `p` (from `next`) was resolved with event view
  `{data, last}`. -/
  | resolvedP : PromId → Val → Option Val → TraceEv
deriving DecidableEq

/-- A queued microtask: the continuation `k` of callback `owner`, suspended
during dispatch number `dispId`. -/
structure Pend where
  dispId : Nat
  owner : CbId
  k : List Act
deriving DecidableEq

/-- The dispatcher state together with the host-runtime state it interacts
with (microtask queue, per-dispatch stop flags, observable trace). -/
structure Quicklime where
  /-- The `callbacks : Set` field, as its insertion-ordered entry list;
  the boolean is `false` for a deleted (tombstoned) entry. -/
  entries : List (CbId × Bool)
  /-- The `last` field; `none` models `null`. -/
  last : Option Val
  /-- One stop flag per dispatch so far; dispatch number `d` reads and
  writes index `d` only. -/
  stopFlags : List Bool
  /-- The FIFO microtask queue of suspended continuations. -/
  pending : List Pend
  /-- The observable trace. -/
  trace : List TraceEv
deriving DecidableEq

/-- The constructor `new Quicklime(last)` (`src/index.ts` line 26). -/
def Quicklime.create (last0 : Option Val) : Quicklime :=
  ⟨[], last0, [], [], []⟩

/-- JS `Set.add`: a no-op when a live entry with this identity exists,
otherwise append a fresh live entry. -/
def addEntry (c : CbId) (es : List (CbId × Bool)) : List (CbId × Bool) :=
  if es.any (fun e => e.1 = c && e.2) then es else es ++ [(c, true)]

/-- JS `Set.delete`: tombstone every entry with this identity. -/
def delEntry (c : CbId) (es : List (CbId × Bool)) : List (CbId × Bool) :=
  es.map (fun e => if e.1 = c then (e.1, false) else e)

/-- The method `on` (`src/index.ts` lines 33-36). -/
def Quicklime.on (c : CbId) (s : Quicklime) : Quicklime :=
  { s with entries := addEntry c s.entries }

/-- The method `off` (`src/index.ts` lines 57-60). -/
def Quicklime.off (c : CbId) (s : Quicklime) : Quicklime :=
  { s with entries := delEntry c s.entries, trace := s.trace ++ [.offEv c] }

/-- The method `clear` (`src/index.ts` lines 66-69). -/
def Quicklime.clear (s : Quicklime) : Quicklime :=
  { s with entries := s.entries.map (fun e => (e.1, false)) }

/-- The method `once` (`src/index.ts` lines 44-50): `once(callback)` builds a
fresh wrapper closure and registers it with `on`. In the embedding the
wrapper is a fresh identity `w` whose behaviour the environment maps to
`CbBody.wrapper h`; registering it is `on w`. -/
def Quicklime.once (w : CbId) (s : Quicklime) : Quicklime :=
  s.on w

/-- The method `next` (`src/index.ts` lines 75-79): it creates a fresh
promise `p` and registers, with `on`, a fresh handle that resolves `p` with
the event. In the embedding the handle is a fresh identity `r` whose
behaviour the environment maps to `CbBody.resolver p`. -/
def Quicklime.next (r : CbId) (s : Quicklime) : Quicklime :=
  s.on r

/-- Read the stop flag of dispatch `dispId` (`propagationStopped`). -/
def getFlag (s : Quicklime) (dispId : Nat) : Bool :=
  s.stopFlags.getD dispId false

/-- Set the stop flag of dispatch `dispId` (the `stopPropagation`
capability closes over exactly this dispatch's flag). -/
def setFlag (dispId : Nat) (s : Quicklime) : Quicklime :=
  { s with stopFlags := s.stopFlags.set dispId true }

/-- How one run of a callback's actions ended. -/
inductive RunRes where
  /-- Ran to normal completion. -/
  | done : RunRes
  /-- Threw the error `e`. -/
  | threw : ErrId → RunRes
  /-- Hit an `await`; `k` is the remaining continuation. -/
  | suspended : List Act → RunRes
deriving DecidableEq

/-- Run a callback's actions synchronously up to completion, a throw, or the
first suspension point. -/
def runActs (dispId : Nat) : List Act → Quicklime → Quicklime × RunRes
  | [], s => (s, .done)
  | .stopProp :: rest, s => runActs dispId rest (setFlag dispId s)
  | .throwErr e :: _, s => (s, .threw e)
  | .offCb c :: rest, s => runActs dispId rest (s.off c)
  | .suspend :: rest, s => (s, .suspended rest)

/-- Settle one fire-and-forget run of `owner`'s actions: on completion log
it, on a throw route the error to the rejection diagnostics, on suspension
queue the continuation as a microtask. -/
def finishRun (dispId : Nat) (owner : CbId) (sr : Quicklime × RunRes) : Quicklime :=
  match sr.2 with
  | .done => { sr.1 with trace := sr.1.trace ++ [TraceEv.completed owner] }
  | .threw e => { sr.1 with trace := sr.1.trace ++ [TraceEv.sink e] }
  | .suspended k => { sr.1 with pending := sr.1.pending ++ [Pend.mk dispId owner k] }

/-- The body actions of the callback wrapped by a `once` wrapper (the source
wraps an arbitrary callback; non-plain bodies wrap as an immediately
completing body). -/
def innerActs (env : Env) (h : CbId) : List Act :=
  match env.body h with
  | .plain acts => acts
  | _ => []

/-- One engine invocation `(async () => callback({data, last,
stopPropagation}))()` (`src/index.ts` line 102): the callback's synchronous
portion runs now; a synchronous throw is caught at this single invocation's
boundary (it becomes that promise's rejection, routed to the diagnostics
`sink`); a suspension queues the continuation; the engine never awaits.
A `once` wrapper calls its inner callback and then `off`s itself — without
awaiting, so an inner suspension leaves the inner continuation pending while
the wrapper already removes itself; an inner synchronous throw propagates
out of the wrapper before the `off` line is reached. -/
def invokeCb (env : Env) (dispId : Nat) (c : CbId) (data : Val)
    (lastv : Option Val) (s : Quicklime) : Quicklime :=
  let s0 := { s with trace := s.trace ++ [.invoked c data lastv] }
  match env.body c with
  | .plain acts => finishRun dispId c (runActs dispId acts s0)
  | .wrapper h =>
      let s1 := { s0 with trace := s0.trace ++ [TraceEv.innerInvoked h data lastv] }
      let rr := runActs dispId (innerActs env h) s1
      match rr.2 with
      | RunRes.done =>
          let s3 := { rr.1 with trace := rr.1.trace ++ [TraceEv.completed h] }
          let s4 := s3.off c
          { s4 with trace := s4.trace ++ [TraceEv.completed c] }
      | RunRes.threw e => { rr.1 with trace := rr.1.trace ++ [TraceEv.sink e] }
      | RunRes.suspended k =>
          let s3 := { rr.1 with pending := rr.1.pending ++ [Pend.mk dispId h k] }
          let s4 := s3.off c
          { s4 with trace := s4.trace ++ [TraceEv.completed c] }
  | .resolver p =>
      let s1 := { s0 with trace := s0.trace ++ [TraceEv.resolvedP p data lastv] }
      { s1 with trace := s1.trace ++ [TraceEv.completed c] }

/-- Scan a suffix of the entry list (whose first element sits at absolute
index `i`) for its first live entry. -/
def findLiveAux : List (CbId × Bool) → Nat → Option (Nat × CbId)
  | [], _ => none
  | e :: rest, i => if e.2 then some (i, e.1) else findLiveAux rest (i + 1)

/-- Find the first live entry of `es` at index `i` or later, returning its
index and identity: the observable stepping of a JS `Set` iterator, which
skips tombstoned entries. -/
def findLive (es : List (CbId × Bool)) (i : Nat) : Option (Nat × CbId) :=
  findLiveAux (es.drop i) i

/-- The `for (const callback of this.callbacks)` loop of `dispatch`
(`src/index.ts` lines 96-105): take the next live entry, fire it, then
check `propagationStopped` and break if it is set. `fuel` bounds the number
of iterations; since no action re-adds entries, the entry list's length is
an upper bound. -/
def go (env : Env) (dispId : Nat) (data : Val) (lastv : Option Val) :
    Nat → Nat → Quicklime → Quicklime
  | 0, _, s => s
  | fuel + 1, i, s =>
      match findLive s.entries i with
      | none => s
      | some (j, c) =>
          let s' := invokeCb env dispId c data lastv s
          if getFlag s' dispId then s' else go env dispId data lastv fuel (j + 1) s'

/-- The method `dispatch` (`src/index.ts` lines 85-106): capture `last`,
overwrite it with the new data, create the dispatch-local stop flag, then
drive the loop over the live registry. It returns once the synchronous
iteration ends; suspended continuations run later (`drain`). -/
def Quicklime.dispatch (env : Env) (data : Val) (s : Quicklime) : Quicklime :=
  let lastv := s.last
  let dispId := s.stopFlags.length
  let s' := { s with last := some data, stopFlags := s.stopFlags ++ [false] }
  go env dispId data lastv s'.entries.length 0 s'

/-- Run one queued microtask: the continuation runs synchronously up to
completion, a throw (an unhandled rejection, routed to the diagnostics
`sink`), or a further suspension (re-queued at the back, FIFO). -/
def stepPend (p : Pend) (s : Quicklime) : Quicklime :=
  finishRun p.dispId p.owner (runActs p.dispId p.k s)

/-- Run up to `fuel` microtasks from the queue. -/
def microtasks : Nat → Quicklime → Quicklime
  | 0, s => s
  | fuel + 1, s =>
      match s.pending with
      | [] => s
      | p :: rest => microtasks fuel (stepPend p { s with pending := rest })

/-- Weight of a microtask queue: enough fuel to drain it, since a re-queued
continuation is strictly shorter. -/
def pendWeight (ps : List Pend) : Nat :=
  (ps.map (fun p => p.k.length + 1)).sum

/-- Drain the microtask queue: what the host event loop does after
`dispatch` returned and the call stack emptied. -/
def Quicklime.drain (s : Quicklime) : Quicklime :=
  microtasks (pendWeight s.pending) s

/-- The live handles of the registry in iteration order (the observable,
order-preserving view of the `Set`). -/
def liveIds (s : Quicklime) : List CbId :=
  (s.entries.filter (fun e => e.2)).map Prod.fst

/-- The result of running an action list synchronously (pure mirror of
`runActs`). -/
def syncRes : List Act → RunRes
  | [] => .done
  | .stopProp :: r => syncRes r
  | .throwErr e :: _ => .threw e
  | .offCb _ :: r => syncRes r
  | .suspend :: r => .suspended r

/-- The `offEv` trace events emitted by the synchronous prefix of an action
list. -/
def syncOffEvs : List Act → List TraceEv
  | [] => []
  | .stopProp :: r => syncOffEvs r
  | .throwErr _ :: _ => []
  | .offCb c :: r => .offEv c :: syncOffEvs r
  | .suspend :: _ => []

/-- The identities `off`ed by the synchronous prefix of an action list. -/
def syncOffIds : List Act → List CbId
  | [] => []
  | .stopProp :: r => syncOffIds r
  | .throwErr _ :: _ => []
  | .offCb c :: r => c :: syncOffIds r
  | .suspend :: _ => []

/-- Whether the synchronous prefix of an action list calls
`stopPropagation` (before any suspension or throw). -/
def syncStops : List Act → Bool
  | [] => false
  | .stopProp :: _ => true
  | .throwErr _ :: _ => false
  | .offCb _ :: r => syncStops r
  | .suspend :: _ => false

/-- Whether an action list contains no `off` call anywhere (continuations
included). -/
def noOff : List Act → Bool
  | [] => true
  | .offCb _ :: _ => false
  | _ :: r => noOff r

/-- Whether an action list contains no suspension point. -/
def noSusp : List Act → Bool
  | [] => true
  | .suspend :: _ => false
  | _ :: r => noSusp r

/-- The first error an action list ever throws, looking across suspension
points (a throw after a suspension rejects the callback's promise at
microtask time). -/
def raises : List Act → Option ErrId
  | [] => none
  | .throwErr e :: _ => some e
  | _ :: r => raises r

/-- The error an action list throws synchronously (before any suspension),
if any. -/
def syncRaise : List Act → Option ErrId
  | [] => none
  | .throwErr e :: _ => some e
  | .suspend :: _ => none
  | _ :: r => syncRaise r

/-- The trace events appended by one engine invocation of `c` with event
view `{data, lastv}` (pure mirror of `invokeCb`, which appends exactly
these). -/
def emitsSync (env : Env) (c : CbId) (data : Val) (lastv : Option Val) :
    List TraceEv :=
  TraceEv.invoked c data lastv ::
    match env.body c with
    | .plain acts =>
        syncOffEvs acts ++
          (match syncRes acts with
           | .done => [TraceEv.completed c]
           | .threw e => [TraceEv.sink e]
           | .suspended _ => [])
    | .wrapper h =>
        TraceEv.innerInvoked h data lastv ::
          (syncOffEvs (innerActs env h) ++
            (match syncRes (innerActs env h) with
             | .done => [TraceEv.completed h, TraceEv.offEv c, TraceEv.completed c]
             | .threw e => [TraceEv.sink e]
             | .suspended _ => [TraceEv.offEv c, TraceEv.completed c]))
    | .resolver p => [TraceEv.resolvedP p data lastv, TraceEv.completed c]

/-- The microtask (owner and continuation) queued by one engine invocation
of `c`, if its synchronous portion suspends (pure mirror of `invokeCb`). -/
def pendsSync (env : Env) (c : CbId) : Option (CbId × List Act) :=
  match env.body c with
  | .plain acts =>
      match syncRes acts with
      | .suspended k => some (c, k)
      | _ => none
  | .wrapper h =>
      match syncRes (innerActs env h) with
      | .suspended k => some (h, k)
      | _ => none
  | .resolver _ => none

/-- The identities `off`ed during one engine invocation of `c` (body offs,
plus the wrapper's self-removal when the inner call returned without
throwing). -/
def offsIds (env : Env) (c : CbId) : List CbId :=
  match env.body c with
  | .plain acts => syncOffIds acts
  | .wrapper h =>
      syncOffIds (innerActs env h) ++
        (match syncRes (innerActs env h) with
         | .threw _ => []
         | _ => [c])
  | .resolver _ => []

/-- A tame behaviour: its action list (the wrapped one, for a wrapper)
never calls `off` and does not call `stopPropagation` synchronously.
Invoking a tame callback never prevents a later handle of the same dispatch
from being scheduled. -/
def tameB (env : Env) : CbBody → Bool
  | .plain acts => noOff acts && !syncStops acts
  | .wrapper h => noOff (innerActs env h) && !syncStops (innerActs env h)
  | .resolver _ => true

/-- Every live entry of the list has a tame behaviour. -/
def tameSet (env : Env) (es : List (CbId × Bool)) : Bool :=
  es.all (fun e => !e.2 || tameB env (env.body e.1))

/-- Every live entry strictly below index `ja` has a tame behaviour. -/
def tameBelow (env : Env) (es : List (CbId × Bool)) (ja : Nat) : Bool :=
  (es.take ja).all (fun e => !e.2 || tameB env (env.body e.1))

/-- Every live entry of the list has a plain and tame behaviour. -/
def plainTameSet (env : Env) (es : List (CbId × Bool)) : Bool :=
  es.all (fun e =>
    !e.2 ||
      (match env.body e.1 with
       | .plain acts => noOff acts && !syncStops acts
       | _ => false))

/-- Some occurrence of `a` is followed, later in the list, by an occurrence
of `b` (checked at the first occurrence of `a`). -/
def precedes (a b : TraceEv) : List TraceEv → Bool
  | [] => false
  | x :: rest => if x = a then decide (b ∈ rest) else precedes a b rest

/-- Apply a sequence of `off` calls to the entry list. -/
def applyOffs (ids : List CbId) (es : List (CbId × Bool)) : List (CbId × Bool) :=
  ids.foldl (fun acc x => delEntry x acc) es

/-- All entries with a given identity are tombstoned. -/
def allDead (x : CbId) (es : List (CbId × Bool)) : Prop :=
  ∀ e ∈ es, e.1 = x → e.2 = false

theorem length_delEntry (c : CbId) (es : List (CbId × Bool)) :
    (delEntry c es).length = es.length := by
  simp [delEntry]

theorem fst_map_delEntry (c : CbId) (es : List (CbId × Bool)) :
    (delEntry c es).map Prod.fst = es.map Prod.fst := by
  induction es with
  | nil => rfl
  | cons e rest ih =>
      simp only [delEntry, List.map] at ih ⊢
      by_cases h : e.1 = c <;> simp [h, ih]

theorem delEntry_getElem?_of_ne (c : CbId) (es : List (CbId × Bool)) (j : Nat)
    (e : CbId × Bool) (hj : es[j]? = some e) (hne : e.1 ≠ c) :
    (delEntry c es)[j]? = some e := by
  simp only [delEntry, List.getElem?_map, hj, Option.map_some']
  simp [hne]

theorem delEntry_dead_pres (c : CbId) (es : List (CbId × Bool)) (j : Nat)
    (x : CbId) (hj : es[j]? = some (x, false)) :
    (delEntry c es)[j]? = some (x, false) := by
  simp only [delEntry, List.getElem?_map, hj, Option.map_some']
  by_cases h : x = c <;> simp [h]

theorem delEntry_live_back (c : CbId) (es : List (CbId × Bool)) (j : Nat)
    (x : CbId) (hj : (delEntry c es)[j]? = some (x, true)) :
    es[j]? = some (x, true) := by
  simp only [delEntry, List.getElem?_map] at hj
  cases he : es[j]? with
  | none => rw [he] at hj; exact Option.noConfusion hj
  | some e =>
      rw [he] at hj
      simp only [Option.map_some', Option.some.injEq] at hj
      by_cases h : e.1 = c
      · simp [h] at hj
      · simp only [h, if_false] at hj
        rw [hj]

theorem delEntry_allDead_self (c : CbId) (es : List (CbId × Bool)) :
    allDead c (delEntry c es) := by
  intro e he hfst
  simp only [delEntry, List.mem_map] at he
  obtain ⟨e0, _, heq⟩ := he
  by_cases h : e0.1 = c
  · simp only [h, if_true, if_pos] at heq
    rw [← heq]
  · simp only [h, if_false] at heq
    rw [← heq] at hfst
    exact absurd hfst h

theorem delEntry_allDead_pres (c x : CbId) (es : List (CbId × Bool))
    (h : allDead x es) : allDead x (delEntry c es) := by
  intro e he hfst
  simp only [delEntry, List.mem_map] at he
  obtain ⟨e0, he0, heq⟩ := he
  by_cases hc : e0.1 = c
  · simp only [hc, if_true, if_pos] at heq
    rw [← heq]
  · simp only [hc, if_false] at heq
    rw [← heq] at hfst ⊢
    exact h e0 he0 hfst

theorem applyOffs_fst_map (ids : List CbId) (es : List (CbId × Bool)) :
    (applyOffs ids es).map Prod.fst = es.map Prod.fst := by
  induction ids generalizing es with
  | nil => rfl
  | cons c rest ih => simp only [applyOffs, List.foldl] at ih ⊢; rw [ih, fst_map_delEntry]

theorem applyOffs_length (ids : List CbId) (es : List (CbId × Bool)) :
    (applyOffs ids es).length = es.length := by
  have := congrArg List.length (applyOffs_fst_map ids es)
  simpa using this

theorem applyOffs_getElem?_of_not_mem (ids : List CbId) (es : List (CbId × Bool))
    (j : Nat) (e : CbId × Bool) (hj : es[j]? = some e) (hnm : e.1 ∉ ids) :
    (applyOffs ids es)[j]? = some e := by
  induction ids generalizing es with
  | nil => exact hj
  | cons c rest ih =>
      simp only [applyOffs, List.foldl] at ih ⊢
      have hne : e.1 ≠ c := fun h => hnm (h ▸ List.mem_cons_self c rest)
      exact ih (delEntry c es) (delEntry_getElem?_of_ne c es j e hj hne)
        (fun h => hnm (List.mem_cons_of_mem c h))

theorem applyOffs_dead_pres (ids : List CbId) (es : List (CbId × Bool))
    (j : Nat) (x : CbId) (hj : es[j]? = some (x, false)) :
    (applyOffs ids es)[j]? = some (x, false) := by
  induction ids generalizing es with
  | nil => exact hj
  | cons c rest ih =>
      exact ih (delEntry c es) (delEntry_dead_pres c es j x hj)

theorem applyOffs_live_back (ids : List CbId) (es : List (CbId × Bool))
    (j : Nat) (x : CbId) (hj : (applyOffs ids es)[j]? = some (x, true)) :
    es[j]? = some (x, true) := by
  induction ids generalizing es with
  | nil => exact hj
  | cons c rest ih =>
      exact delEntry_live_back c es j x (ih (delEntry c es) hj)

theorem applyOffs_allDead_pres (ids : List CbId) (es : List (CbId × Bool))
    (x : CbId) (h : allDead x es) : allDead x (applyOffs ids es) := by
  induction ids generalizing es with
  | nil => exact h
  | cons c rest ih => exact ih (delEntry c es) (delEntry_allDead_pres c x es h)

theorem applyOffs_allDead_of_mem (ids : List CbId) (es : List (CbId × Bool))
    (x : CbId) (hx : x ∈ ids) : allDead x (applyOffs ids es) := by
  induction ids generalizing es with
  | nil => cases hx
  | cons c rest ih =>
      rcases List.mem_cons.mp hx with h | h
      · subst h
        exact applyOffs_allDead_pres rest (delEntry x es) x
          (delEntry_allDead_self x es)
      · exact ih (delEntry c es) h

theorem syncRes_suspended_length (acts k : List Act)
    (h : syncRes acts = .suspended k) : k.length < acts.length := by
  induction acts with
  | nil => simp [syncRes] at h
  | cons a rest ih =>
      cases a with
      | stopProp =>
          simp only [syncRes] at h
          exact Nat.lt_succ_of_lt (ih h)
      | throwErr e => simp [syncRes] at h
      | offCb c =>
          simp only [syncRes] at h
          exact Nat.lt_succ_of_lt (ih h)
      | suspend =>
          simp only [syncRes, RunRes.suspended.injEq] at h
          rw [← h]
          exact Nat.lt_succ_self _

theorem raises_syncRes (acts : List Act) (e : ErrId) (h : raises acts = some e) :
    syncRes acts = .threw e ∨ ∃ k, syncRes acts = .suspended k ∧ raises k = some e := by
  induction acts with
  | nil => simp [raises] at h
  | cons a rest ih =>
      cases a with
      | stopProp => simp only [raises] at h; simpa [syncRes] using ih h
      | throwErr x => simp only [raises, Option.some.injEq] at h; left; simp [syncRes, h]
      | offCb c => simp only [raises] at h; simpa [syncRes] using ih h
      | suspend =>
          simp only [raises] at h
          right; exact ⟨rest, rfl, h⟩

theorem raises_none_syncRes (acts : List Act) (h : raises acts = none) :
    syncRes acts = .done ∨ ∃ k, syncRes acts = .suspended k ∧ raises k = none := by
  induction acts with
  | nil => left; rfl
  | cons a rest ih =>
      cases a with
      | stopProp => simp only [raises] at h; simpa [syncRes] using ih h
      | throwErr x => simp [raises] at h
      | offCb c => simp only [raises] at h; simpa [syncRes] using ih h
      | suspend =>
          simp only [raises] at h
          right; exact ⟨rest, rfl, h⟩

theorem noOff_syncOffIds (acts : List Act) (h : noOff acts = true) :
    syncOffIds acts = [] := by
  induction acts with
  | nil => rfl
  | cons a rest ih => cases a <;> simp_all [noOff, syncOffIds]

theorem noOff_syncOffEvs (acts : List Act) (h : noOff acts = true) :
    syncOffEvs acts = [] := by
  induction acts with
  | nil => rfl
  | cons a rest ih => cases a <;> simp_all [noOff, syncOffEvs]

theorem noOff_suspended (acts k : List Act) (h : noOff acts = true)
    (hs : syncRes acts = .suspended k) : noOff k = true := by
  induction acts with
  | nil => simp [syncRes] at hs
  | cons a rest ih =>
      cases a with
      | stopProp => simp only [noOff] at h; exact ih h hs
      | throwErr e => simp [syncRes] at hs
      | offCb c => simp [noOff] at h
      | suspend =>
          simp only [syncRes, RunRes.suspended.injEq] at hs
          simp only [noOff] at h
          rw [← hs]; exact h

theorem mem_syncOffEvs (acts : List Act) (ev : TraceEv) (h : ev ∈ syncOffEvs acts) :
    ∃ y, ev = .offEv y := by
  induction acts with
  | nil => cases h
  | cons a rest ih =>
      cases a with
      | stopProp => exact ih h
      | throwErr e => cases h
      | offCb c =>
          rcases List.mem_cons.mp h with h | h
          · exact ⟨c, h⟩
          · exact ih h
      | suspend => cases h

theorem offEv_mem_syncOffEvs (acts : List Act) (x : CbId)
    (h : x ∈ syncOffIds acts) : TraceEv.offEv x ∈ syncOffEvs acts := by
  induction acts with
  | nil => cases h
  | cons a rest ih =>
      cases a with
      | stopProp => exact ih h
      | throwErr e => cases h
      | offCb c =>
          rcases List.mem_cons.mp h with h | h
          · subst h; exact List.mem_cons_self _ _
          · exact List.mem_cons_of_mem _ (ih h)
      | suspend => cases h

theorem runActs_fst_trace (dispId : Nat) (acts : List Act) (s : Quicklime) :
    (runActs dispId acts s).1.trace = s.trace ++ syncOffEvs acts := by
  induction acts generalizing s with
  | nil => simp [runActs, syncOffEvs]
  | cons a rest ih =>
      cases a with
      | stopProp => simpa [runActs, syncOffEvs, setFlag] using ih _
      | throwErr e => simp [runActs, syncOffEvs]
      | offCb c => simp [runActs, syncOffEvs, Quicklime.off, ih]
      | suspend => simp [runActs, syncOffEvs]

theorem runActs_snd (dispId : Nat) (acts : List Act) (s : Quicklime) :
    (runActs dispId acts s).2 = syncRes acts := by
  induction acts generalizing s with
  | nil => rfl
  | cons a rest ih => cases a <;> simp [runActs, syncRes, ih]

theorem runActs_fst_entries (dispId : Nat) (acts : List Act) (s : Quicklime) :
    (runActs dispId acts s).1.entries = applyOffs (syncOffIds acts) s.entries := by
  induction acts generalizing s with
  | nil => rfl
  | cons a rest ih =>
      cases a with
      | stopProp => simpa [runActs, syncOffIds, setFlag] using ih _
      | throwErr e => rfl
      | offCb c => simp [runActs, syncOffIds, applyOffs, Quicklime.off, ih]
      | suspend => rfl

theorem runActs_fst_last (dispId : Nat) (acts : List Act) (s : Quicklime) :
    (runActs dispId acts s).1.last = s.last := by
  induction acts generalizing s with
  | nil => rfl
  | cons a rest ih => cases a <;> simp [runActs, setFlag, Quicklime.off, ih]

theorem runActs_fst_pending (dispId : Nat) (acts : List Act) (s : Quicklime) :
    (runActs dispId acts s).1.pending = s.pending := by
  induction acts generalizing s with
  | nil => rfl
  | cons a rest ih => cases a <;> simp [runActs, setFlag, Quicklime.off, ih]

theorem runActs_fst_stopFlags (dispId : Nat) (acts : List Act) (s : Quicklime) :
    (runActs dispId acts s).1.stopFlags =
      if syncStops acts then s.stopFlags.set dispId true else s.stopFlags := by
  induction acts generalizing s with
  | nil => rfl
  | cons a rest ih =>
      cases a with
      | stopProp =>
          simp only [runActs, syncStops, if_true]
          rw [ih]
          by_cases h : syncStops rest
          · simp [h, setFlag, List.set_set]
          · simp [h, setFlag]
      | throwErr e => rfl
      | offCb c => simp [runActs, syncStops, Quicklime.off, ih]
      | suspend => rfl

/-- Whether one engine invocation of `c` sets the current dispatch's stop
flag synchronously. -/
def stopsSync (env : Env) (c : CbId) : Bool :=
  match env.body c with
  | .plain acts => syncStops acts
  | .wrapper h => syncStops (innerActs env h)
  | .resolver _ => false

/-- The microtasks queued by one engine invocation of `c`. -/
def pendsList (env : Env) (dispId : Nat) (c : CbId) : List Pend :=
  match pendsSync env c with
  | some (o, k) => [Pend.mk dispId o k]
  | none => []

/-- An invocation of `c` tombstones no identity other than `c` itself. -/
def selfOffOnly (env : Env) (c : CbId) : Bool :=
  (offsIds env c).all (fun y => y == c)

theorem finishRun_trace (d : Nat) (o : CbId) (sr : Quicklime × RunRes) :
    (finishRun d o sr).trace =
      sr.1.trace ++
        (match sr.2 with
         | .done => [TraceEv.completed o]
         | .threw e => [TraceEv.sink e]
         | .suspended _ => []) := by
  rcases sr with ⟨s, r⟩
  cases r <;> simp [finishRun]

theorem finishRun_pending (d : Nat) (o : CbId) (sr : Quicklime × RunRes) :
    (finishRun d o sr).pending =
      sr.1.pending ++
        (match sr.2 with
         | .suspended k => [Pend.mk d o k]
         | _ => []) := by
  rcases sr with ⟨s, r⟩
  cases r <;> simp [finishRun]

theorem finishRun_entries (d : Nat) (o : CbId) (sr : Quicklime × RunRes) :
    (finishRun d o sr).entries = sr.1.entries := by
  rcases sr with ⟨s, r⟩; cases r <;> simp [finishRun]

theorem finishRun_last (d : Nat) (o : CbId) (sr : Quicklime × RunRes) :
    (finishRun d o sr).last = sr.1.last := by
  rcases sr with ⟨s, r⟩; cases r <;> simp [finishRun]

theorem finishRun_stopFlags (d : Nat) (o : CbId) (sr : Quicklime × RunRes) :
    (finishRun d o sr).stopFlags = sr.1.stopFlags := by
  rcases sr with ⟨s, r⟩; cases r <;> simp [finishRun]

theorem invokeCb_trace (env : Env) (dispId : Nat) (c : CbId) (data : Val)
    (lastv : Option Val) (s : Quicklime) :
    (invokeCb env dispId c data lastv s).trace =
      s.trace ++ emitsSync env c data lastv := by
  cases hb : env.body c with
  | plain acts =>
      simp only [invokeCb, hb, emitsSync]
      rw [finishRun_trace, runActs_fst_trace, runActs_snd]
      cases hres : syncRes acts <;> simp
  | wrapper h =>
      simp only [invokeCb, hb, emitsSync]
      rw [runActs_snd]
      cases hres : syncRes (innerActs env h) with
      | done => simp [Quicklime.off, runActs_fst_trace]
      | threw e => simp [runActs_fst_trace]
      | suspended k => simp [Quicklime.off, runActs_fst_trace]
  | resolver p =>
      simp [invokeCb, hb, emitsSync]

theorem invokeCb_pending (env : Env) (dispId : Nat) (c : CbId) (data : Val)
    (lastv : Option Val) (s : Quicklime) :
    (invokeCb env dispId c data lastv s).pending =
      s.pending ++ pendsList env dispId c := by
  cases hb : env.body c with
  | plain acts =>
      simp only [invokeCb, hb, pendsList, pendsSync]
      rw [finishRun_pending, runActs_fst_pending, runActs_snd]
      cases hres : syncRes acts <;> simp [hres]
  | wrapper h =>
      simp only [invokeCb, hb, pendsList, pendsSync]
      rw [runActs_snd]
      cases hres : syncRes (innerActs env h) <;>
        simp [hres, Quicklime.off, runActs_fst_pending]
  | resolver p =>
      simp [invokeCb, hb, pendsList, pendsSync]

theorem invokeCb_entries (env : Env) (dispId : Nat) (c : CbId) (data : Val)
    (lastv : Option Val) (s : Quicklime) :
    (invokeCb env dispId c data lastv s).entries =
      applyOffs (offsIds env c) s.entries := by
  cases hb : env.body c with
  | plain acts =>
      simp only [invokeCb, hb, offsIds]
      rw [finishRun_entries, runActs_fst_entries]
  | wrapper h =>
      simp only [invokeCb, hb, offsIds]
      rw [runActs_snd]
      cases hres : syncRes (innerActs env h) with
      | done =>
          simp [hres, Quicklime.off, runActs_fst_entries, applyOffs,
            List.foldl_append]
      | threw e => simp [hres, runActs_fst_entries]
      | suspended k =>
          simp [hres, Quicklime.off, runActs_fst_entries, applyOffs,
            List.foldl_append]
  | resolver p =>
      simp [invokeCb, hb, offsIds, applyOffs]

theorem invokeCb_last (env : Env) (dispId : Nat) (c : CbId) (data : Val)
    (lastv : Option Val) (s : Quicklime) :
    (invokeCb env dispId c data lastv s).last = s.last := by
  cases hb : env.body c with
  | plain acts =>
      simp only [invokeCb, hb]
      rw [finishRun_last, runActs_fst_last]
  | wrapper h =>
      simp only [invokeCb, hb]
      rw [runActs_snd]
      cases hres : syncRes (innerActs env h) <;>
        simp [Quicklime.off, runActs_fst_last]
  | resolver p => simp [invokeCb, hb]

theorem invokeCb_stopFlags (env : Env) (dispId : Nat) (c : CbId) (data : Val)
    (lastv : Option Val) (s : Quicklime) :
    (invokeCb env dispId c data lastv s).stopFlags =
      if stopsSync env c then s.stopFlags.set dispId true else s.stopFlags := by
  cases hb : env.body c with
  | plain acts =>
      simp only [invokeCb, hb, stopsSync]
      rw [finishRun_stopFlags, runActs_fst_stopFlags]
  | wrapper h =>
      simp only [invokeCb, hb, stopsSync]
      rw [runActs_snd]
      cases hres : syncRes (innerActs env h) <;>
        simp [Quicklime.off, runActs_fst_stopFlags]
  | resolver p => simp [invokeCb, hb, stopsSync]

theorem tameB_selfOffOnly (env : Env) (c : CbId)
    (h : tameB env (env.body c) = true) : selfOffOnly env c = true := by
  cases hb : env.body c with
  | plain acts =>
      rw [hb] at h
      simp only [tameB, Bool.and_eq_true] at h
      simp [selfOffOnly, offsIds, hb, noOff_syncOffIds acts h.1]
  | wrapper hh =>
      rw [hb] at h
      simp only [tameB, Bool.and_eq_true] at h
      simp [selfOffOnly, offsIds, hb, noOff_syncOffIds _ h.1]
      cases hres : syncRes (innerActs env hh) <;> simp
  | resolver p => simp [selfOffOnly, offsIds, hb]

theorem tameB_stopsSync (env : Env) (c : CbId)
    (h : tameB env (env.body c) = true) : stopsSync env c = false := by
  cases hb : env.body c with
  | plain acts =>
      rw [hb] at h
      simp only [tameB, Bool.and_eq_true] at h
      simp only [stopsSync, hb]
      simpa using h.2
  | wrapper hh =>
      rw [hb] at h
      simp only [tameB, Bool.and_eq_true] at h
      simp only [stopsSync, hb]
      simpa using h.2
  | resolver p => simp [stopsSync, hb]

theorem selfOffOnly_entry_pres (env : Env) (dispId : Nat) (c : CbId)
    (data : Val) (lastv : Option Val) (s : Quicklime)
    (hso : selfOffOnly env c = true) (j : Nat) (e : CbId × Bool)
    (hj : s.entries[j]? = some e) (hne : e.1 ≠ c) :
    (invokeCb env dispId c data lastv s).entries[j]? = some e := by
  rw [invokeCb_entries]
  apply applyOffs_getElem?_of_not_mem _ _ _ _ hj
  intro hmem
  have := List.all_eq_true.mp hso e.1 hmem
  simp at this
  exact hne this

theorem invokeCb_getFlag_of_stops (env : Env) (dispId : Nat) (c : CbId)
    (data : Val) (lastv : Option Val) (s : Quicklime)
    (hlen : dispId < s.stopFlags.length) (hst : stopsSync env c = true) :
    getFlag (invokeCb env dispId c data lastv s) dispId = true := by
  simp only [getFlag, invokeCb_stopFlags, hst, if_true]
  rw [List.getD_eq_getElem?_getD, List.getElem?_set_eq_of_lt true hlen]
  rfl

theorem invokeCb_getFlag_of_tame (env : Env) (dispId d : Nat) (c : CbId)
    (data : Val) (lastv : Option Val) (s : Quicklime)
    (ht : tameB env (env.body c) = true) :
    getFlag (invokeCb env dispId c data lastv s) d = getFlag s d := by
  simp [getFlag, invokeCb_stopFlags, tameB_stopsSync env c ht]

theorem invokeCb_stopFlags_length (env : Env) (dispId : Nat) (c : CbId)
    (data : Val) (lastv : Option Val) (s : Quicklime) :
    (invokeCb env dispId c data lastv s).stopFlags.length =
      s.stopFlags.length := by
  rw [invokeCb_stopFlags]
  by_cases h : stopsSync env c <;> simp [h]

theorem invokeCb_fst_map (env : Env) (dispId : Nat) (c : CbId) (data : Val)
    (lastv : Option Val) (s : Quicklime) :
    (invokeCb env dispId c data lastv s).entries.map Prod.fst =
      s.entries.map Prod.fst := by
  rw [invokeCb_entries, applyOffs_fst_map]

theorem invokeCb_live_back (env : Env) (dispId : Nat) (c : CbId) (data : Val)
    (lastv : Option Val) (s : Quicklime) (j : Nat) (x : CbId)
    (hj : (invokeCb env dispId c data lastv s).entries[j]? = some (x, true)) :
    s.entries[j]? = some (x, true) := by
  rw [invokeCb_entries] at hj
  exact applyOffs_live_back _ _ _ _ hj

theorem emitsSync_invoked_inv (env : Env) (c : CbId) (data : Val)
    (lastv : Option Val) (c2 : CbId) (d : Val) (l : Option Val)
    (h : TraceEv.invoked c2 d l ∈ emitsSync env c data lastv) :
    c2 = c ∧ d = data ∧ l = lastv := by
  simp only [emitsSync] at h
  rcases List.mem_cons.mp h with h | h
  · exact ⟨(TraceEv.invoked.injEq _ _ _ _ _ _).mp h |>.1,
      (TraceEv.invoked.injEq _ _ _ _ _ _).mp h |>.2.1,
      (TraceEv.invoked.injEq _ _ _ _ _ _).mp h |>.2.2⟩
  · exfalso
    cases hb : env.body c with
    | plain acts =>
        rw [hb] at h
        rcases List.mem_append.mp h with h | h
        · obtain ⟨y, hy⟩ := mem_syncOffEvs _ _ h; cases hy
        · cases hres : syncRes acts <;> rw [hres] at h <;> simp at h
    | wrapper hh =>
        rw [hb] at h
        rcases List.mem_cons.mp h with h | h
        · cases h
        rcases List.mem_append.mp h with h | h
        · obtain ⟨y, hy⟩ := mem_syncOffEvs _ _ h; cases hy
        · cases hres : syncRes (innerActs env hh) <;> rw [hres] at h <;> simp at h
    | resolver p =>
        rw [hb] at h
        simp at h

theorem emitsSync_resolvedP_inv (env : Env) (c : CbId) (data : Val)
    (lastv : Option Val) (p : PromId) (d : Val) (l : Option Val)
    (h : TraceEv.resolvedP p d l ∈ emitsSync env c data lastv) :
    d = data ∧ l = lastv := by
  simp only [emitsSync] at h
  rcases List.mem_cons.mp h with h | h
  · cases h
  cases hb : env.body c with
  | plain acts =>
      rw [hb] at h
      exfalso
      rcases List.mem_append.mp h with h | h
      · obtain ⟨y, hy⟩ := mem_syncOffEvs _ _ h; cases hy
      · cases hres : syncRes acts <;> rw [hres] at h <;> simp at h
  | wrapper hh =>
      rw [hb] at h
      exfalso
      rcases List.mem_cons.mp h with h | h
      · cases h
      rcases List.mem_append.mp h with h | h
      · obtain ⟨y, hy⟩ := mem_syncOffEvs _ _ h; cases hy
      · cases hres : syncRes (innerActs env hh) <;> rw [hres] at h <;> simp at h
  | resolver q =>
      rw [hb] at h
      rcases List.mem_cons.mp h with h | h
      · have := (TraceEv.resolvedP.injEq _ _ _ _ _ _).mp h
        exact ⟨this.2.1, this.2.2⟩
      · simp at h

theorem emitsSync_completed_inv (env : Env) (c : CbId) (data : Val)
    (lastv : Option Val) (x : CbId)
    (h : TraceEv.completed x ∈ emitsSync env c data lastv) :
    x = c ∨ env.body c = .wrapper x := by
  simp only [emitsSync] at h
  rcases List.mem_cons.mp h with h | h
  · cases h
  cases hb : env.body c with
  | plain acts =>
      rw [hb] at h
      rcases List.mem_append.mp h with h | h
      · obtain ⟨y, hy⟩ := mem_syncOffEvs _ _ h; cases hy
      · left
        cases hres : syncRes acts <;> rw [hres] at h <;> simp at h
        exact h
  | wrapper hh =>
      rw [hb] at h
      rcases List.mem_cons.mp h with h | h
      · cases h
      rcases List.mem_append.mp h with h | h
      · obtain ⟨y, hy⟩ := mem_syncOffEvs _ _ h; cases hy
      · cases hres : syncRes (innerActs env hh) with
        | done =>
            rw [hres] at h
            simp at h
            rcases h with h | h
            · right; rw [h]
            · left; exact h
        | threw e => rw [hres] at h; simp at h
        | suspended k =>
            rw [hres] at h
            simp at h
            left; exact h
  | resolver p =>
      rw [hb] at h
      simp at h
      left; exact h

theorem findLiveAux_sound (l : List (CbId × Bool)) (i j : Nat) (cj : CbId)
    (h : findLiveAux l i = some (j, cj)) :
    i ≤ j ∧ l[j - i]? = some (cj, true) := by
  induction l generalizing i with
  | nil => cases h
  | cons e rest ih =>
      obtain ⟨a, b⟩ := e
      cases b with
      | true =>
          simp only [findLiveAux, if_true, Option.some.injEq, Prod.mk.injEq] at h
          obtain ⟨h1, h2⟩ := h
          subst h1
          subst h2
          exact ⟨Nat.le_refl _, by simp⟩
      | false =>
          simp only [findLiveAux, Bool.false_eq_true, if_false] at h
          obtain ⟨h1, h2⟩ := ih (i + 1) h
          refine ⟨Nat.le_of_succ_le h1, ?_⟩
          have hj : j - i = (j - (i + 1)) + 1 := by omega
          rw [hj]
          simpa using h2

theorem findLiveAux_complete (l : List (CbId × Bool)) (i m : Nat) (x : CbId)
    (h : l[m]? = some (x, true)) :
    ∃ j cj, findLiveAux l i = some (j, cj) ∧ j ≤ i + m := by
  induction l generalizing i m with
  | nil => simp at h
  | cons e rest ih =>
      simp only [findLiveAux]
      by_cases he : e.2
      · exact ⟨i, e.1, by simp [he], Nat.le_add_right _ _⟩
      · simp only [he, if_false]
        cases m with
        | zero =>
            simp only [List.getElem?_cons_zero, Option.some.injEq] at h
            rw [h] at he
            simp at he
        | succ m0 =>
            simp only [List.getElem?_cons_succ] at h
            obtain ⟨j, cj, hfl, hle⟩ := ih (i + 1) m0 h
            exact ⟨j, cj, hfl, by omega⟩

theorem findLive_sound (es : List (CbId × Bool)) (i j : Nat) (cj : CbId)
    (h : findLive es i = some (j, cj)) :
    i ≤ j ∧ es[j]? = some (cj, true) := by
  obtain ⟨h1, h2⟩ := findLiveAux_sound (es.drop i) i j cj h
  refine ⟨h1, ?_⟩
  rw [List.getElem?_drop] at h2
  rwa [Nat.add_sub_cancel' h1] at h2

theorem findLive_complete (es : List (CbId × Bool)) (i ja : Nat) (c : CbId)
    (hja : es[ja]? = some (c, true)) (hle : i ≤ ja) :
    ∃ j cj, findLive es i = some (j, cj) ∧ j ≤ ja := by
  have hd : (es.drop i)[ja - i]? = some (c, true) := by
    rw [List.getElem?_drop, Nat.add_sub_cancel' hle]; exact hja
  obtain ⟨j, cj, hfl, hle2⟩ := findLiveAux_complete (es.drop i) i (ja - i) c hd
  exact ⟨j, cj, hfl, by omega⟩

theorem nodup_fst_ne (es : List (CbId × Bool)) (hnd : (es.map Prod.fst).Nodup)
    (j j' : Nat) (e e' : CbId × Bool) (hj : es[j]? = some e)
    (hj' : es[j']? = some e') (hne : j ≠ j') : e.1 ≠ e'.1 := by
  have hm : (es.map Prod.fst)[j]? = some e.1 := by
    rw [List.getElem?_map, hj]; rfl
  have hm' : (es.map Prod.fst)[j']? = some e'.1 := by
    rw [List.getElem?_map, hj']; rfl
  obtain ⟨hlt, hget⟩ := List.getElem?_eq_some.mp hm
  obtain ⟨hlt', hget'⟩ := List.getElem?_eq_some.mp hm'
  have hpw := List.pairwise_iff_getElem.mp hnd
  rcases Nat.lt_or_ge j j' with h | h
  · intro hc
    exact hpw j j' hlt hlt' h (by rw [hget, hget', hc])
  · intro hc
    exact hpw j' j hlt' hlt (by omega) (by rw [hget, hget', hc])

theorem go_trace_mono (env : Env) (dispId : Nat) (data : Val)
    (lastv : Option Val) (fuel : Nat) :
    ∀ (i : Nat) (s : Quicklime),
      ∃ t, (go env dispId data lastv fuel i s).trace = s.trace ++ t := by
  induction fuel with
  | zero => intro i s; exact ⟨[], by simp [go]⟩
  | succ fuel ih =>
      intro i s
      simp only [go]
      cases hfl : findLive s.entries i with
      | none => exact ⟨[], by simp⟩
      | some jc =>
          obtain ⟨j, c⟩ := jc
          simp only
          by_cases hflag : getFlag (invokeCb env dispId c data lastv s) dispId
          · rw [if_pos hflag, invokeCb_trace]
            exact ⟨emitsSync env c data lastv, rfl⟩
          · rw [if_neg hflag]
            obtain ⟨t, ht⟩ := ih (j + 1) (invokeCb env dispId c data lastv s)
            rw [ht, invokeCb_trace]
            exact ⟨emitsSync env c data lastv ++ t, by simp⟩

theorem go_mem_trace (env : Env) (dispId : Nat) (data : Val)
    (lastv : Option Val) (fuel i : Nat) (s : Quicklime) (ev : TraceEv)
    (h : ev ∈ s.trace) : ev ∈ (go env dispId data lastv fuel i s).trace := by
  obtain ⟨t, ht⟩ := go_trace_mono env dispId data lastv fuel i s
  rw [ht]
  exact List.mem_append_left _ h

theorem go_pending_mono (env : Env) (dispId : Nat) (data : Val)
    (lastv : Option Val) (fuel : Nat) :
    ∀ (i : Nat) (s : Quicklime) (p : Pend), p ∈ s.pending →
      p ∈ (go env dispId data lastv fuel i s).pending := by
  induction fuel with
  | zero => intro i s p hp; simpa [go] using hp
  | succ fuel ih =>
      intro i s p hp
      simp only [go]
      cases hfl : findLive s.entries i with
      | none => exact hp
      | some jc =>
          obtain ⟨j, c⟩ := jc
          simp only
          have hp' : p ∈ (invokeCb env dispId c data lastv s).pending := by
            rw [invokeCb_pending]
            exact List.mem_append_left _ hp
          by_cases hflag : getFlag (invokeCb env dispId c data lastv s) dispId
          · rw [if_pos hflag]; exact hp'
          · rw [if_neg hflag]; exact ih (j + 1) _ p hp'

theorem go_last (env : Env) (dispId : Nat) (data : Val) (lastv : Option Val)
    (fuel : Nat) :
    ∀ (i : Nat) (s : Quicklime),
      (go env dispId data lastv fuel i s).last = s.last := by
  induction fuel with
  | zero => intro i s; simp [go]
  | succ fuel ih =>
      intro i s
      simp only [go]
      cases hfl : findLive s.entries i with
      | none => rfl
      | some jc =>
          obtain ⟨j, c⟩ := jc
          simp only
          by_cases hflag : getFlag (invokeCb env dispId c data lastv s) dispId
          · rw [if_pos hflag, invokeCb_last]
          · rw [if_neg hflag, ih, invokeCb_last]

theorem go_fst_map (env : Env) (dispId : Nat) (data : Val) (lastv : Option Val)
    (fuel : Nat) :
    ∀ (i : Nat) (s : Quicklime),
      (go env dispId data lastv fuel i s).entries.map Prod.fst =
        s.entries.map Prod.fst := by
  induction fuel with
  | zero => intro i s; simp [go]
  | succ fuel ih =>
      intro i s
      simp only [go]
      cases hfl : findLive s.entries i with
      | none => rfl
      | some jc =>
          obtain ⟨j, c⟩ := jc
          simp only
          by_cases hflag : getFlag (invokeCb env dispId c data lastv s) dispId
          · rw [if_pos hflag, invokeCb_fst_map]
          · rw [if_neg hflag, ih, invokeCb_fst_map]

theorem go_entries_length (env : Env) (dispId : Nat) (data : Val)
    (lastv : Option Val) (fuel i : Nat) (s : Quicklime) :
    (go env dispId data lastv fuel i s).entries.length = s.entries.length := by
  have := congrArg List.length (go_fst_map env dispId data lastv fuel i s)
  simpa using this

theorem go_entries_id (env : Env) (dispId : Nat) (data : Val)
    (lastv : Option Val) (fuel : Nat) :
    ∀ (i : Nat) (s : Quicklime),
      (∀ (j : Nat) (e : CbId × Bool), s.entries[j]? = some e → e.2 = true →
        offsIds env e.1 = []) →
      (go env dispId data lastv fuel i s).entries = s.entries := by
  induction fuel with
  | zero => intro i s _; simp [go]
  | succ fuel ih =>
      intro i s hOff
      simp only [go]
      cases hfl : findLive s.entries i with
      | none => rfl
      | some jc =>
          obtain ⟨j, c⟩ := jc
          simp only
          obtain ⟨hij, hj⟩ := findLive_sound s.entries i j c hfl
          have hc : offsIds env c = [] := hOff j (c, true) hj rfl
          have hent : (invokeCb env dispId c data lastv s).entries = s.entries := by
            rw [invokeCb_entries, hc]; rfl
          by_cases hflag : getFlag (invokeCb env dispId c data lastv s) dispId
          · rw [if_pos hflag]; exact hent
          · rw [if_neg hflag]
            rw [ih (j + 1) _ (by rw [hent]; exact hOff)]
            exact hent

theorem go_trace_P (env : Env) (dispId : Nat) (data : Val) (lastv : Option Val)
    (P : TraceEv → Prop) (fuel : Nat) :
    ∀ (i : Nat) (s : Quicklime),
      (∀ (j : Nat) (e : CbId × Bool), i ≤ j → s.entries[j]? = some e →
        e.2 = true → ∀ ev ∈ emitsSync env e.1 data lastv, P ev) →
      ∃ t, (go env dispId data lastv fuel i s).trace = s.trace ++ t ∧
        ∀ ev ∈ t, P ev := by
  induction fuel with
  | zero => intro i s _; exact ⟨[], by simp [go], by simp⟩
  | succ fuel ih =>
      intro i s hP
      simp only [go]
      cases hfl : findLive s.entries i with
      | none => exact ⟨[], by simp, by simp⟩
      | some jc =>
          obtain ⟨j, c⟩ := jc
          simp only
          obtain ⟨hij, hj⟩ := findLive_sound s.entries i j c hfl
          have hPc : ∀ ev ∈ emitsSync env c data lastv, P ev :=
            hP j (c, true) hij hj rfl
          by_cases hflag : getFlag (invokeCb env dispId c data lastv s) dispId
          · rw [if_pos hflag]
            exact ⟨emitsSync env c data lastv, invokeCb_trace _ _ _ _ _ _, hPc⟩
          · rw [if_neg hflag]
            obtain ⟨t, ht, hPt⟩ := ih (j + 1) (invokeCb env dispId c data lastv s)
              (by
                intro j' e hij' hj' hlive
                have he : e = (e.1, true) := by
                  rw [← hlive]
                have hback : s.entries[j']? = some (e.1, true) :=
                  invokeCb_live_back env dispId c data lastv s j' e.1 (he ▸ hj')
                exact hP j' e (by omega) (by rw [he]; exact hback) hlive)
            rw [ht, invokeCb_trace]
            refine ⟨emitsSync env c data lastv ++ t, by simp, ?_⟩
            intro ev hev
            rcases List.mem_append.mp hev with h | h
            · exact hPc ev h
            · exact hPt ev h

theorem go_invoked_view (env : Env) (dispId : Nat) (data : Val)
    (lastv : Option Val) (fuel : Nat) :
    ∀ (i : Nat) (s : Quicklime) (c : CbId) (d : Val) (l : Option Val),
      TraceEv.invoked c d l ∈ (go env dispId data lastv fuel i s).trace →
      TraceEv.invoked c d l ∈ s.trace ∨ (d = data ∧ l = lastv) := by
  induction fuel with
  | zero => intro i s c d l h; left; simpa [go] using h
  | succ fuel ih =>
      intro i s c d l h
      simp only [go] at h
      cases hfl : findLive s.entries i with
      | none => rw [hfl] at h; left; exact h
      | some jc =>
          obtain ⟨j, cj⟩ := jc
          rw [hfl] at h
          simp only at h
          have hsplit :
              TraceEv.invoked c d l ∈ (invokeCb env dispId cj data lastv s).trace →
              TraceEv.invoked c d l ∈ s.trace ∨ (d = data ∧ l = lastv) := by
            intro hmem
            rw [invokeCb_trace] at hmem
            rcases List.mem_append.mp hmem with hmem | hmem
            · left; exact hmem
            · right
              have := emitsSync_invoked_inv env cj data lastv c d l hmem
              exact ⟨this.2.1, this.2.2⟩
          by_cases hflag : getFlag (invokeCb env dispId cj data lastv s) dispId
          · rw [if_pos hflag] at h; exact hsplit h
          · rw [if_neg hflag] at h
            rcases ih (j + 1) _ c d l h with h2 | h2
            · exact hsplit h2
            · right; exact h2

theorem go_resolvedP_view (env : Env) (dispId : Nat) (data : Val)
    (lastv : Option Val) (fuel : Nat) :
    ∀ (i : Nat) (s : Quicklime) (p : PromId) (d : Val) (l : Option Val),
      TraceEv.resolvedP p d l ∈ (go env dispId data lastv fuel i s).trace →
      TraceEv.resolvedP p d l ∈ s.trace ∨ (d = data ∧ l = lastv) := by
  induction fuel with
  | zero => intro i s p d l h; left; simpa [go] using h
  | succ fuel ih =>
      intro i s p d l h
      simp only [go] at h
      cases hfl : findLive s.entries i with
      | none => rw [hfl] at h; left; exact h
      | some jc =>
          obtain ⟨j, cj⟩ := jc
          rw [hfl] at h
          simp only at h
          have hsplit :
              TraceEv.resolvedP p d l ∈ (invokeCb env dispId cj data lastv s).trace →
              TraceEv.resolvedP p d l ∈ s.trace ∨ (d = data ∧ l = lastv) := by
            intro hmem
            rw [invokeCb_trace] at hmem
            rcases List.mem_append.mp hmem with hmem | hmem
            · left; exact hmem
            · right; exact emitsSync_resolvedP_inv env cj data lastv p d l hmem
          by_cases hflag : getFlag (invokeCb env dispId cj data lastv s) dispId
          · rw [if_pos hflag] at h; exact hsplit h
          · rw [if_neg hflag] at h
            rcases ih (j + 1) _ p d l h with h2 | h2
            · exact hsplit h2
            · right; exact h2

theorem go_dead_not_invoked (env : Env) (dispId : Nat) (data : Val)
    (lastv : Option Val) (b : CbId) (fuel : Nat) :
    ∀ (i : Nat) (s : Quicklime), allDead b s.entries →
      (∀ (d : Val) (l : Option Val), TraceEv.invoked b d l ∉ s.trace) →
      ∀ (d : Val) (l : Option Val),
        TraceEv.invoked b d l ∉ (go env dispId data lastv fuel i s).trace := by
  induction fuel with
  | zero => intro i s _ hfresh d l h; exact hfresh d l (by simpa [go] using h)
  | succ fuel ih =>
      intro i s hdead hfresh d l h
      simp only [go] at h
      cases hfl : findLive s.entries i with
      | none => rw [hfl] at h; exact hfresh d l h
      | some jc =>
          obtain ⟨j, cj⟩ := jc
          rw [hfl] at h
          simp only at h
          obtain ⟨hij, hj⟩ := findLive_sound s.entries i j cj hfl
          have hcb : cj ≠ b := by
            intro hcb
            have := hdead (cj, true) (List.getElem?_mem hj) hcb
            simp at this
          have hfresh' : ∀ (d : Val) (l : Option Val),
              TraceEv.invoked b d l ∉ (invokeCb env dispId cj data lastv s).trace := by
            intro d' l' hmem
            rw [invokeCb_trace] at hmem
            rcases List.mem_append.mp hmem with hmem | hmem
            · exact hfresh d' l' hmem
            · exact hcb (emitsSync_invoked_inv env cj data lastv b d' l' hmem).1.symm
          have hdead' : allDead b (invokeCb env dispId cj data lastv s).entries := by
            rw [invokeCb_entries]
            exact applyOffs_allDead_pres _ _ _ hdead
          by_cases hflag : getFlag (invokeCb env dispId cj data lastv s) dispId
          · rw [if_pos hflag] at h; exact hfresh' d l h
          · rw [if_neg hflag] at h
            exact ih (j + 1) _ hdead' hfresh' d l h

theorem invokeCb_entries_length (env : Env) (dispId : Nat) (c : CbId)
    (data : Val) (lastv : Option Val) (s : Quicklime) :
    (invokeCb env dispId c data lastv s).entries.length = s.entries.length := by
  have := congrArg List.length (invokeCb_fst_map env dispId c data lastv s)
  simpa using this

theorem go_reaches (env : Env) (dispId : Nat) (data : Val) (lastv : Option Val)
    (P : TraceEv → Prop) (fuel : Nat) :
    ∀ (i : Nat) (s : Quicklime) (ja : Nat) (c : CbId),
      s.entries.length ≤ fuel + i →
      s.entries[ja]? = some (c, true) →
      i ≤ ja →
      (s.entries.map Prod.fst).Nodup →
      getFlag s dispId = false →
      (∀ (j : Nat) (e : CbId × Bool), j < ja → s.entries[j]? = some e →
        e.2 = true → tameB env (env.body e.1) = true) →
      (∀ (j : Nat) (e : CbId × Bool), s.entries[j]? = some e → e.2 = true →
        e.1 ≠ c → ∀ ev ∈ emitsSync env e.1 data lastv, P ev) →
      ∃ T rest,
        (go env dispId data lastv fuel i s).trace =
          s.trace ++ T ++ emitsSync env c data lastv ++ rest ∧
        (∀ ev ∈ T, P ev) ∧ (∀ ev ∈ rest, P ev) ∧
        ∀ (o : CbId) (k : List Act), pendsSync env c = some (o, k) →
          Pend.mk dispId o k ∈ (go env dispId data lastv fuel i s).pending := by
  induction fuel with
  | zero =>
      intro i s ja c hfuel hja hile hnd hflag htame hP
      exfalso
      obtain ⟨hlt, _⟩ := List.getElem?_eq_some.mp hja
      omega
  | succ fuel ih =>
      intro i s ja c hfuel hja hile hnd hflag htame hP
      simp only [go]
      cases hfl : findLive s.entries i with
      | none =>
          exfalso
          obtain ⟨j, cj, hfl2, _⟩ := findLive_complete s.entries i ja c hja hile
          rw [hfl] at hfl2
          exact Option.noConfusion hfl2
      | some jc =>
          obtain ⟨j, cj⟩ := jc
          simp only
          obtain ⟨hij, hj⟩ := findLive_sound s.entries i j cj hfl
          obtain ⟨j0, cj0, hfl2, hle2⟩ := findLive_complete s.entries i ja c hja hile
          rw [hfl] at hfl2
          have hjja : j ≤ ja := by
            have h3 : (j, cj) = (j0, cj0) := Option.some.inj hfl2
            have h4 : j = j0 := congrArg Prod.fst h3
            omega
          by_cases hjeq : j = ja
          · subst hjeq
            have hcc : cj = c := by
              rw [hja] at hj
              exact (((Prod.mk.injEq _ _ _ _).mp ((Option.some.injEq _ _).mp hj)).1).symm
            subst hcc
            have hpend : ∀ (o : CbId) (k : List Act),
                pendsSync env cj = some (o, k) →
                Pend.mk dispId o k ∈ (invokeCb env dispId cj data lastv s).pending := by
              intro o k hpk
              rw [invokeCb_pending, pendsList, hpk]
              exact List.mem_append_right _ (List.mem_singleton_self _)
            by_cases hflag2 : getFlag (invokeCb env dispId cj data lastv s) dispId
            · rw [if_pos hflag2]
              refine ⟨[], [], ?_, by simp, by simp, hpend⟩
              rw [invokeCb_trace]
              simp
            · rw [if_neg hflag2]
              obtain ⟨t, ht, hPt⟩ := go_trace_P env dispId data lastv P fuel (j + 1)
                (invokeCb env dispId cj data lastv s)
                (by
                  intro j' e hij' hj' hlive
                  have he : e = (e.1, true) := by rw [← hlive]
                  have hback : s.entries[j']? = some (e.1, true) :=
                    invokeCb_live_back env dispId cj data lastv s j' e.1 (he ▸ hj')
                  have hne : e.1 ≠ cj :=
                    nodup_fst_ne s.entries hnd j' j (e.1, true) (cj, true)
                      hback hj (by omega)
                  exact hP j' e (by rw [he]; exact hback) hlive hne)
              rw [ht, invokeCb_trace]
              refine ⟨[], t, by simp, by simp, hPt, ?_⟩
              intro o k hpk
              exact go_pending_mono env dispId data lastv fuel (j + 1) _ _ (hpend o k hpk)
          · have hjlt : j < ja := Nat.lt_of_le_of_ne hjja hjeq
            have hcne : cj ≠ c :=
              nodup_fst_ne s.entries hnd j ja (cj, true) (c, true) hj hja hjeq
            have htcj : tameB env (env.body cj) = true := htame j (cj, true) hjlt hj rfl
            have hflag2 : getFlag (invokeCb env dispId cj data lastv s) dispId = false := by
              rw [invokeCb_getFlag_of_tame env dispId dispId cj data lastv s htcj]
              exact hflag
            rw [if_neg (by rw [hflag2]; exact Bool.false_ne_true)]
            have hja' : (invokeCb env dispId cj data lastv s).entries[ja]? =
                some (c, true) :=
              selfOffOnly_entry_pres env dispId cj data lastv s
                (tameB_selfOffOnly env cj htcj) ja (c, true) hja hcne.symm
            obtain ⟨T, rest, htr, hPT, hPrest, hpend⟩ := ih (j + 1)
              (invokeCb env dispId cj data lastv s) ja c
              (by rw [invokeCb_entries_length]; omega)
              hja'
              (by omega)
              (by rw [invokeCb_fst_map]; exact hnd)
              hflag2
              (by
                intro j' e hj'lt hj' hlive
                have he : e = (e.1, true) := by rw [← hlive]
                have hback : s.entries[j']? = some (e.1, true) :=
                  invokeCb_live_back env dispId cj data lastv s j' e.1 (he ▸ hj')
                exact htame j' e hj'lt (by rw [he]; exact hback) hlive)
              (by
                intro j' e hj' hlive hne
                have he : e = (e.1, true) := by rw [← hlive]
                have hback : s.entries[j']? = some (e.1, true) :=
                  invokeCb_live_back env dispId cj data lastv s j' e.1 (he ▸ hj')
                exact hP j' e (by rw [he]; exact hback) hlive hne)
            refine ⟨emitsSync env cj data lastv ++ T, rest, ?_, ?_, hPrest, hpend⟩
            · rw [htr, invokeCb_trace]
              simp
            · intro ev hev
              rcases List.mem_append.mp hev with h | h
              · exact hP j (cj, true) hj rfl hcne ev h
              · exact hPT ev h

theorem fst_map_getElem? (es es2 : List (CbId × Bool))
    (hm : es2.map Prod.fst = es.map Prod.fst) (j : Nat) (e : CbId × Bool)
    (hj : es2[j]? = some e) : ∃ e0, es[j]? = some e0 ∧ e0.1 = e.1 := by
  have h2 : (es2.map Prod.fst)[j]? = some e.1 := by
    rw [List.getElem?_map, hj]; rfl
  rw [hm, List.getElem?_map] at h2
  cases he : es[j]? with
  | none => rw [he] at h2; exact Option.noConfusion h2
  | some e0 =>
      rw [he] at h2
      simp only [Option.map_some', Option.some.injEq] at h2
      exact ⟨e0, rfl, h2⟩

theorem go_stopper (env : Env) (dispId : Nat) (data : Val) (lastv : Option Val)
    (b : CbId) (fuel : Nat) :
    ∀ (i : Nat) (s : Quicklime) (jc : Nat) (c : CbId),
      i ≤ jc →
      s.entries[jc]? = some (c, true) →
      stopsSync env c = true →
      dispId < s.stopFlags.length →
      (s.entries.map Prod.fst).Nodup →
      (∀ (j : Nat) (e : CbId × Bool), j < jc → s.entries[j]? = some e →
        e.2 = true → tameB env (env.body e.1) = true) →
      (∀ (j : Nat) (e : CbId × Bool), s.entries[j]? = some e → e.1 = b → jc < j) →
      (∀ (d : Val) (l : Option Val), TraceEv.invoked b d l ∉ s.trace) →
      ∀ (d : Val) (l : Option Val),
        TraceEv.invoked b d l ∉ (go env dispId data lastv fuel i s).trace := by
  induction fuel with
  | zero => intro i s jc c _ _ _ _ _ _ _ hfresh d l h; exact hfresh d l (by simpa [go] using h)
  | succ fuel ih =>
      intro i s jc c hile hjc hst hlen hnd htame hbpos hfresh d l h
      simp only [go] at h
      cases hfl : findLive s.entries i with
      | none => rw [hfl] at h; exact hfresh d l h
      | some jcj =>
          obtain ⟨j, cj⟩ := jcj
          rw [hfl] at h
          simp only at h
          obtain ⟨hij, hj⟩ := findLive_sound s.entries i j cj hfl
          obtain ⟨j0, cj0, hfl2, hle2⟩ := findLive_complete s.entries i jc c hjc hile
          rw [hfl] at hfl2
          have hjjc : j ≤ jc := by
            have h3 : (j, cj) = (j0, cj0) := Option.some.inj hfl2
            have h4 : j = j0 := congrArg Prod.fst h3
            omega
          have hcjb : cj ≠ b := by
            intro he
            have := hbpos j (cj, true) hj he
            omega
          have hfresh' : ∀ (d' : Val) (l' : Option Val),
              TraceEv.invoked b d' l' ∉ (invokeCb env dispId cj data lastv s).trace := by
            intro d' l' hmem
            rw [invokeCb_trace] at hmem
            rcases List.mem_append.mp hmem with hmem | hmem
            · exact hfresh d' l' hmem
            · exact hcjb (emitsSync_invoked_inv env cj data lastv b d' l' hmem).1.symm
          by_cases hjeq : j = jc
          · subst hjeq
            have hcc : cj = c := by
              have := hj.symm.trans hjc
              exact ((Prod.mk.injEq _ _ _ _).mp (Option.some.inj this)).1
            subst hcc
            rw [if_pos (invokeCb_getFlag_of_stops env dispId cj data lastv s hlen hst)] at h
            exact hfresh' d l h
          · have hjlt : j < jc := Nat.lt_of_le_of_ne hjjc hjeq
            have htcj : tameB env (env.body cj) = true := htame j (cj, true) hjlt hj rfl
            have hcne : cj ≠ c :=
              nodup_fst_ne s.entries hnd j jc (cj, true) (c, true) hj hjc hjeq
            by_cases hflag2 : getFlag (invokeCb env dispId cj data lastv s) dispId
            · rw [if_pos hflag2] at h
              exact hfresh' d l h
            · rw [if_neg hflag2] at h
              refine ih (j + 1) (invokeCb env dispId cj data lastv s) jc c
                (by omega)
                (selfOffOnly_entry_pres env dispId cj data lastv s
                  (tameB_selfOffOnly env cj htcj) jc (c, true) hjc hcne.symm)
                hst
                (by rw [invokeCb_stopFlags_length]; exact hlen)
                (by rw [invokeCb_fst_map]; exact hnd)
                (by
                  intro j' e hj'lt hj' hlive
                  have he : e = (e.1, true) := by rw [← hlive]
                  have hback : s.entries[j']? = some (e.1, true) :=
                    invokeCb_live_back env dispId cj data lastv s j' e.1 (he ▸ hj')
                  exact htame j' e hj'lt (by rw [he]; exact hback) hlive)
                (by
                  intro j' e hj' hfst
                  obtain ⟨e0, he0, hfst0⟩ := fst_map_getElem? s.entries _
                    (invokeCb_fst_map env dispId cj data lastv s) j' e hj'
                  exact hbpos j' e0 he0 (hfst0.trans hfst))
                hfresh' d l h

theorem go_off_skips (env : Env) (dispId : Nat) (data : Val) (lastv : Option Val)
    (x : CbId) (fuel : Nat) :
    ∀ (i : Nat) (s : Quicklime) (ib : Nat) (b : CbId),
      i ≤ ib →
      s.entries[ib]? = some (b, true) →
      x ∈ offsIds env b →
      (∀ (j : Nat) (e : CbId × Bool), j < ib → s.entries[j]? = some e →
        e.2 = true → selfOffOnly env e.1 = true) →
      (s.entries.map Prod.fst).Nodup →
      (∀ (j : Nat) (e : CbId × Bool), s.entries[j]? = some e → e.1 = x → ib < j) →
      (∀ (d : Val) (l : Option Val), TraceEv.invoked x d l ∉ s.trace) →
      ∀ (d : Val) (l : Option Val),
        TraceEv.invoked x d l ∉ (go env dispId data lastv fuel i s).trace := by
  induction fuel with
  | zero => intro i s ib b _ _ _ _ _ _ hfresh d l h; exact hfresh d l (by simpa [go] using h)
  | succ fuel ih =>
      intro i s ib b hile hib hoffs hself hnd hxpos hfresh d l h
      simp only [go] at h
      cases hfl : findLive s.entries i with
      | none => rw [hfl] at h; exact hfresh d l h
      | some jcj =>
          obtain ⟨j, cj⟩ := jcj
          rw [hfl] at h
          simp only at h
          obtain ⟨hij, hj⟩ := findLive_sound s.entries i j cj hfl
          obtain ⟨j0, cj0, hfl2, hle2⟩ := findLive_complete s.entries i ib b hib hile
          rw [hfl] at hfl2
          have hjib : j ≤ ib := by
            have h3 : (j, cj) = (j0, cj0) := Option.some.inj hfl2
            have h4 : j = j0 := congrArg Prod.fst h3
            omega
          have hcjx : cj ≠ x := by
            intro he
            have := hxpos j (cj, true) hj he
            omega
          have hfresh' : ∀ (d' : Val) (l' : Option Val),
              TraceEv.invoked x d' l' ∉ (invokeCb env dispId cj data lastv s).trace := by
            intro d' l' hmem
            rw [invokeCb_trace] at hmem
            rcases List.mem_append.mp hmem with hmem | hmem
            · exact hfresh d' l' hmem
            · exact hcjx (emitsSync_invoked_inv env cj data lastv x d' l' hmem).1.symm
          by_cases hjeq : j = ib
          · subst hjeq
            have hcc : cj = b := by
              have := hj.symm.trans hib
              exact ((Prod.mk.injEq _ _ _ _).mp (Option.some.inj this)).1
            subst hcc
            have hdead : allDead x (invokeCb env dispId cj data lastv s).entries := by
              rw [invokeCb_entries]
              exact applyOffs_allDead_of_mem _ _ _ hoffs
            by_cases hflag2 : getFlag (invokeCb env dispId cj data lastv s) dispId
            · rw [if_pos hflag2] at h
              exact hfresh' d l h
            · rw [if_neg hflag2] at h
              exact go_dead_not_invoked env dispId data lastv x fuel (j + 1) _
                hdead hfresh' d l h
          · have hjlt : j < ib := Nat.lt_of_le_of_ne hjib hjeq
            have hscj : selfOffOnly env cj = true := hself j (cj, true) hjlt hj rfl
            have hcne : cj ≠ b :=
              nodup_fst_ne s.entries hnd j ib (cj, true) (b, true) hj hib hjeq
            by_cases hflag2 : getFlag (invokeCb env dispId cj data lastv s) dispId
            · rw [if_pos hflag2] at h
              exact hfresh' d l h
            · rw [if_neg hflag2] at h
              refine ih (j + 1) (invokeCb env dispId cj data lastv s) ib b
                (by omega)
                (selfOffOnly_entry_pres env dispId cj data lastv s hscj ib
                  (b, true) hib hcne.symm)
                hoffs
                (by
                  intro j' e hj'lt hj' hlive
                  have he : e = (e.1, true) := by rw [← hlive]
                  have hback : s.entries[j']? = some (e.1, true) :=
                    invokeCb_live_back env dispId cj data lastv s j' e.1 (he ▸ hj')
                  exact hself j' e hj'lt (by rw [he]; exact hback) hlive)
                (by rw [invokeCb_fst_map]; exact hnd)
                (by
                  intro j' e hj' hfst
                  obtain ⟨e0, he0, hfst0⟩ := fst_map_getElem? s.entries _
                    (invokeCb_fst_map env dispId cj data lastv s) j' e hj'
                  exact hxpos j' e0 he0 (hfst0.trans hfst))
                hfresh' d l h

/-- The trace events appended by running one microtask (pure mirror of
`stepPend`). -/
def emitsPend (p : Pend) : List TraceEv :=
  syncOffEvs p.k ++
    (match syncRes p.k with
     | .done => [TraceEv.completed p.owner]
     | .threw e => [TraceEv.sink e]
     | .suspended _ => [])

theorem stepPend_trace (p : Pend) (s : Quicklime) :
    (stepPend p s).trace = s.trace ++ emitsPend p := by
  simp only [stepPend, emitsPend]
  rw [finishRun_trace, runActs_fst_trace, runActs_snd]
  cases hres : syncRes p.k <;> simp

theorem stepPend_pending (p : Pend) (s : Quicklime) :
    (stepPend p s).pending =
      s.pending ++
        (match syncRes p.k with
         | .suspended k2 => [Pend.mk p.dispId p.owner k2]
         | _ => []) := by
  simp only [stepPend]
  rw [finishRun_pending, runActs_fst_pending, runActs_snd]

theorem stepPend_entries (p : Pend) (s : Quicklime) :
    (stepPend p s).entries = applyOffs (syncOffIds p.k) s.entries := by
  simp only [stepPend]
  rw [finishRun_entries, runActs_fst_entries]

theorem stepPend_last (p : Pend) (s : Quicklime) :
    (stepPend p s).last = s.last := by
  simp only [stepPend]
  rw [finishRun_last, runActs_fst_last]

theorem emitsPend_no_invoked (p : Pend) (c : CbId) (d : Val) (l : Option Val) :
    TraceEv.invoked c d l ∉ emitsPend p := by
  intro h
  simp only [emitsPend] at h
  rcases List.mem_append.mp h with h | h
  · obtain ⟨y, hy⟩ := mem_syncOffEvs _ _ h; cases hy
  · cases hres : syncRes p.k <;> rw [hres] at h <;> simp at h

theorem emitsPend_no_resolvedP (p : Pend) (q : PromId) (d : Val) (l : Option Val) :
    TraceEv.resolvedP q d l ∉ emitsPend p := by
  intro h
  simp only [emitsPend] at h
  rcases List.mem_append.mp h with h | h
  · obtain ⟨y, hy⟩ := mem_syncOffEvs _ _ h; cases hy
  · cases hres : syncRes p.k <;> rw [hres] at h <;> simp at h

theorem syncRes_threw_raises (acts : List Act) (e : ErrId)
    (h : syncRes acts = .threw e) : raises acts = some e := by
  induction acts with
  | nil => simp [syncRes] at h
  | cons a rest ih =>
      cases a with
      | stopProp => simp only [syncRes] at h; simpa [raises] using ih h
      | throwErr x =>
          simp only [syncRes, RunRes.threw.injEq] at h
          simp [raises, h]
      | offCb c => simp only [syncRes] at h; simpa [raises] using ih h
      | suspend => simp [syncRes] at h

theorem microtasks_trace_mono (fuel : Nat) :
    ∀ (s : Quicklime), ∃ t, (microtasks fuel s).trace = s.trace ++ t := by
  induction fuel with
  | zero => intro s; exact ⟨[], by simp [microtasks]⟩
  | succ fuel ih =>
      intro s
      simp only [microtasks]
      cases hp : s.pending with
      | nil => exact ⟨[], by simp⟩
      | cons p rest =>
          obtain ⟨t, ht⟩ := ih (stepPend p { s with pending := rest })
          rw [ht, stepPend_trace]
          exact ⟨emitsPend p ++ t, by simp⟩

theorem microtasks_mem_trace (fuel : Nat) (s : Quicklime) (ev : TraceEv)
    (h : ev ∈ s.trace) : ev ∈ (microtasks fuel s).trace := by
  obtain ⟨t, ht⟩ := microtasks_trace_mono fuel s
  rw [ht]
  exact List.mem_append_left _ h

theorem microtasks_last (fuel : Nat) :
    ∀ (s : Quicklime), (microtasks fuel s).last = s.last := by
  induction fuel with
  | zero => intro s; simp [microtasks]
  | succ fuel ih =>
      intro s
      simp only [microtasks]
      cases hp : s.pending with
      | nil => rfl
      | cons p rest => rw [ih, stepPend_last]

theorem microtasks_no_invoked (fuel : Nat) :
    ∀ (s : Quicklime) (c : CbId) (d : Val) (l : Option Val),
      TraceEv.invoked c d l ∉ s.trace →
      TraceEv.invoked c d l ∉ (microtasks fuel s).trace := by
  induction fuel with
  | zero => intro s c d l h hmem; exact h (by simpa [microtasks] using hmem)
  | succ fuel ih =>
      intro s c d l h hmem
      simp only [microtasks] at hmem
      cases hp : s.pending with
      | nil => rw [hp] at hmem; exact h hmem
      | cons p rest =>
          rw [hp] at hmem
          refine ih (stepPend p { s with pending := rest }) c d l ?_ hmem
          intro hmem2
          rw [stepPend_trace] at hmem2
          rcases List.mem_append.mp hmem2 with h2 | h2
          · exact h h2
          · exact emitsPend_no_invoked p c d l h2

theorem microtasks_no_resolvedP (fuel : Nat) :
    ∀ (s : Quicklime) (q : PromId) (d : Val) (l : Option Val),
      TraceEv.resolvedP q d l ∉ s.trace →
      TraceEv.resolvedP q d l ∉ (microtasks fuel s).trace := by
  induction fuel with
  | zero => intro s q d l h hmem; exact h (by simpa [microtasks] using hmem)
  | succ fuel ih =>
      intro s q d l h hmem
      simp only [microtasks] at hmem
      cases hp : s.pending with
      | nil => rw [hp] at hmem; exact h hmem
      | cons p rest =>
          rw [hp] at hmem
          refine ih (stepPend p { s with pending := rest }) q d l ?_ hmem
          intro hmem2
          rw [stepPend_trace] at hmem2
          rcases List.mem_append.mp hmem2 with h2 | h2
          · exact h h2
          · exact emitsPend_no_resolvedP p q d l h2

theorem microtasks_entries_of_noOff (fuel : Nat) :
    ∀ (s : Quicklime), (∀ p ∈ s.pending, noOff p.k = true) →
      (microtasks fuel s).entries = s.entries := by
  induction fuel with
  | zero => intro s _; simp [microtasks]
  | succ fuel ih =>
      intro s hno
      simp only [microtasks]
      cases hp : s.pending with
      | nil => rfl
      | cons p rest =>
          have hnop : noOff p.k = true := hno p (hp ▸ List.mem_cons_self _ _)
          have hent : (stepPend p { s with pending := rest }).entries = s.entries := by
            rw [stepPend_entries, noOff_syncOffIds _ hnop]
            rfl
          rw [ih _ ?_, hent]
          intro q hq
          rw [stepPend_pending] at hq
          rcases List.mem_append.mp hq with hq | hq
          · exact hno q (hp ▸ List.mem_cons_of_mem _ hq)
          · cases hres : syncRes p.k <;> rw [hres] at hq <;> simp at hq
            rw [hq]
            exact noOff_suspended p.k _ hnop hres

theorem pendWeight_cons (p : Pend) (ps : List Pend) :
    pendWeight (p :: ps) = (p.k.length + 1) + pendWeight ps := by
  simp [pendWeight]

theorem pendWeight_append (ps qs : List Pend) :
    pendWeight (ps ++ qs) = pendWeight ps + pendWeight qs := by
  simp [pendWeight]

theorem pendWeight_mem (p : Pend) (ps : List Pend) (h : p ∈ ps) :
    p.k.length + 1 ≤ pendWeight ps := by
  induction ps with
  | nil => cases h
  | cons q rest ih =>
      rw [pendWeight_cons]
      rcases List.mem_cons.mp h with h | h
      · rw [h]; omega
      · have := ih h; omega

theorem stepPend_pendWeight (p : Pend) (s : Quicklime) :
    pendWeight (stepPend p s).pending ≤ pendWeight s.pending + p.k.length := by
  rw [stepPend_pending, pendWeight_append]
  cases hres : syncRes p.k with
  | done => simp [pendWeight]
  | threw e => simp [pendWeight]
  | suspended k2 =>
      have := syncRes_suspended_length p.k k2 hres
      simp only [pendWeight, List.map_cons, List.map_nil, List.sum_cons,
        List.sum_nil]
      omega

theorem microtasks_sink (fuel : Nat) :
    ∀ (s : Quicklime) (p : Pend) (e : ErrId),
      p ∈ s.pending → raises p.k = some e → pendWeight s.pending ≤ fuel →
      TraceEv.sink e ∈ (microtasks fuel s).trace := by
  induction fuel with
  | zero =>
      intro s p e hp _ hw
      exfalso
      have := pendWeight_mem p s.pending hp
      omega
  | succ fuel ih =>
      intro s p e hp hraise hw
      simp only [microtasks]
      cases hpend : s.pending with
      | nil => rw [hpend] at hp; cases hp
      | cons q rest =>
          rw [hpend] at hp hw
          rw [pendWeight_cons] at hw
          have hw2 : pendWeight (stepPend q { s with pending := rest }).pending ≤ fuel := by
            have := stepPend_pendWeight q { s with pending := rest }
            simp only at this
            omega
          rcases List.mem_cons.mp hp with hp | hp
          · subst hp
            rcases raises_syncRes p.k e hraise with hres | ⟨k2, hres, hk2⟩
            · apply microtasks_mem_trace
              rw [stepPend_trace]
              apply List.mem_append_right
              simp only [emitsPend, hres]
              exact List.mem_append_right _ (List.mem_singleton_self _)
            · refine ih (stepPend p { s with pending := rest })
                (Pend.mk p.dispId p.owner k2) e ?_ hk2 hw2
              rw [stepPend_pending, hres]
              exact List.mem_append_right _ (List.mem_singleton_self _)
          · refine ih (stepPend q { s with pending := rest }) p e ?_ hraise hw2
            rw [stepPend_pending]
            exact List.mem_append_left _ hp

theorem microtasks_completes (fuel : Nat) :
    ∀ (s : Quicklime) (p : Pend),
      p ∈ s.pending → raises p.k = none → pendWeight s.pending ≤ fuel →
      TraceEv.completed p.owner ∈ (microtasks fuel s).trace := by
  induction fuel with
  | zero =>
      intro s p hp _ hw
      exfalso
      have := pendWeight_mem p s.pending hp
      omega
  | succ fuel ih =>
      intro s p hp hraise hw
      simp only [microtasks]
      cases hpend : s.pending with
      | nil => rw [hpend] at hp; cases hp
      | cons q rest =>
          rw [hpend] at hp hw
          rw [pendWeight_cons] at hw
          have hw2 : pendWeight (stepPend q { s with pending := rest }).pending ≤ fuel := by
            have := stepPend_pendWeight q { s with pending := rest }
            simp only at this
            omega
          rcases List.mem_cons.mp hp with hp | hp
          · subst hp
            rcases raises_none_syncRes p.k hraise with hres | ⟨k2, hres, hk2⟩
            · apply microtasks_mem_trace
              rw [stepPend_trace]
              apply List.mem_append_right
              simp only [emitsPend, hres]
              exact List.mem_append_right _ (List.mem_singleton_self _)
            · have := ih (stepPend p { s with pending := rest })
                (Pend.mk p.dispId p.owner k2) ?_ hk2 hw2
              · exact this
              · rw [stepPend_pending, hres]
                exact List.mem_append_right _ (List.mem_singleton_self _)
          · refine ih (stepPend q { s with pending := rest }) p ?_ hraise hw2
            rw [stepPend_pending]
            exact List.mem_append_left _ hp

theorem tameSet_spec (env : Env) (es : List (CbId × Bool))
    (h : tameSet env es = true) (j : Nat) (e : CbId × Bool)
    (hj : es[j]? = some e) (hlive : e.2 = true) :
    tameB env (env.body e.1) = true := by
  have := List.all_eq_true.mp h e (List.getElem?_mem hj)
  rcases Bool.or_eq_true_iff.mp this with h2 | h2
  · rw [hlive] at h2; simp at h2
  · exact h2

theorem plainTameSet_tameSet (env : Env) (es : List (CbId × Bool))
    (h : plainTameSet env es = true) : tameSet env es = true := by
  apply List.all_eq_true.mpr
  intro e he
  have := List.all_eq_true.mp h e he
  rcases Bool.or_eq_true_iff.mp this with h2 | h2
  · exact Bool.or_eq_true_iff.mpr (Or.inl h2)
  · apply Bool.or_eq_true_iff.mpr
    right
    cases hb : env.body e.1 with
    | plain acts => rw [hb] at h2; simpa [tameB] using h2
    | wrapper hh => rw [hb] at h2; simp at h2
    | resolver p => rw [hb] at h2; simp at h2

theorem plainTameSet_offsIds (env : Env) (es : List (CbId × Bool))
    (h : plainTameSet env es = true) (j : Nat) (e : CbId × Bool)
    (hj : es[j]? = some e) (hlive : e.2 = true) : offsIds env e.1 = [] := by
  have := List.all_eq_true.mp h e (List.getElem?_mem hj)
  rcases Bool.or_eq_true_iff.mp this with h2 | h2
  · rw [hlive] at h2; simp at h2
  · cases hb : env.body e.1 with
    | plain acts =>
        rw [hb] at h2
        simp only [Bool.and_eq_true] at h2
        simp [offsIds, hb, noOff_syncOffIds acts h2.1]
    | wrapper hh => rw [hb] at h2; simp at h2
    | resolver p => rw [hb] at h2; simp at h2

theorem dispatch_getFlag_init (s : Quicklime) :
    getFlag { s with last := s.last, stopFlags := s.stopFlags ++ [false] }
      s.stopFlags.length = false := by
  simp only [getFlag, List.getD_eq_getElem?_getD]
  rw [List.getElem?_concat_length]
  rfl

theorem dispatch_last (env : Env) (data : Val) (s : Quicklime) :
    (s.dispatch env data).last = some data := by
  simp only [Quicklime.dispatch]
  rw [go_last]

theorem dispatch_trace_mono (env : Env) (data : Val) (s : Quicklime) :
    ∃ t, (s.dispatch env data).trace = s.trace ++ t := by
  simp only [Quicklime.dispatch]
  exact go_trace_mono env s.stopFlags.length data s.last s.entries.length 0 _

theorem dispatch_fst_map (env : Env) (data : Val) (s : Quicklime) :
    (s.dispatch env data).entries.map Prod.fst = s.entries.map Prod.fst := by
  simp only [Quicklime.dispatch]
  rw [go_fst_map]

theorem dispatch_entries_id (env : Env) (data : Val) (s : Quicklime)
    (hOff : ∀ (j : Nat) (e : CbId × Bool), s.entries[j]? = some e →
      e.2 = true → offsIds env e.1 = []) :
    (s.dispatch env data).entries = s.entries := by
  simp only [Quicklime.dispatch]
  exact go_entries_id env s.stopFlags.length data s.last s.entries.length 0 _ hOff

theorem dispatch_reaches (env : Env) (data : Val) (s : Quicklime)
    (P : TraceEv → Prop) (ja : Nat) (c : CbId)
    (hja : s.entries[ja]? = some (c, true))
    (hnd : (s.entries.map Prod.fst).Nodup)
    (htame : ∀ (j : Nat) (e : CbId × Bool), j < ja → s.entries[j]? = some e →
      e.2 = true → tameB env (env.body e.1) = true)
    (hP : ∀ (j : Nat) (e : CbId × Bool), s.entries[j]? = some e → e.2 = true →
      e.1 ≠ c → ∀ ev ∈ emitsSync env e.1 data s.last, P ev) :
    ∃ T rest,
      (s.dispatch env data).trace =
        s.trace ++ T ++ emitsSync env c data s.last ++ rest ∧
      (∀ ev ∈ T, P ev) ∧ (∀ ev ∈ rest, P ev) ∧
      ∀ (o : CbId) (k : List Act), pendsSync env c = some (o, k) →
        Pend.mk s.stopFlags.length o k ∈ (s.dispatch env data).pending := by
  simp only [Quicklime.dispatch]
  exact go_reaches env s.stopFlags.length data s.last P s.entries.length 0
    { s with last := some data, stopFlags := s.stopFlags ++ [false] } ja c
    (by simp) hja (Nat.zero_le _) hnd (dispatch_getFlag_init s) htame hP

theorem dispatch_invokes_live (env : Env) (data : Val) (s : Quicklime)
    (ja : Nat) (c : CbId) (hja : s.entries[ja]? = some (c, true))
    (hnd : (s.entries.map Prod.fst).Nodup)
    (htame : tameSet env s.entries = true) :
    TraceEv.invoked c data s.last ∈ (s.dispatch env data).trace := by
  obtain ⟨T, rest, htr, _, _, _⟩ := dispatch_reaches env data s (fun _ => True)
    ja c hja hnd
    (fun j e _ hj hlive => tameSet_spec env s.entries htame j e hj hlive)
    (fun _ _ _ _ _ _ _ => trivial)
  rw [htr]
  apply List.mem_append_left
  apply List.mem_append_right
  simp [emitsSync]

/-- No `invoked` event for handle `b` occurs in the trace. -/
def noInvokedOf (b : CbId) (t : List TraceEv) : Bool :=
  t.all (fun ev =>
    match ev with
    | TraceEv.invoked c _ _ => !(c == b)
    | _ => true)

/-- No resolution event for promise `p` occurs in the trace. -/
def noResolvedOf (p : PromId) (t : List TraceEv) : Bool :=
  t.all (fun ev =>
    match ev with
    | TraceEv.resolvedP q _ _ => !(q == p)
    | _ => true)

/-- The behaviour of `c` is an ordinary callback that never calls `off` and
does not call `stopPropagation` synchronously. -/
def plainTameB (env : Env) (c : CbId) : Bool :=
  match env.body c with
  | CbBody.plain a => noOff a && !syncStops a
  | _ => false

/-- Every live entry except (possibly) the one with identity `w` is tame. -/
def tameExcept (env : Env) (w : CbId) (es : List (CbId × Bool)) : Bool :=
  es.all (fun e => !e.2 || (e.1 == w) || tameB env (env.body e.1))

/-- Every live entry except (possibly) the one with identity `w` is a plain
tame callback. -/
def othersPlainTame (env : Env) (w : CbId) (es : List (CbId × Bool)) : Bool :=
  es.all (fun e => !e.2 || (e.1 == w) || plainTameB env e.1)

/-- No entry (live or dead) has identity `x`. -/
def noEntryOf (x : CbId) (es : List (CbId × Bool)) : Bool :=
  es.all (fun e => !(e.1 == x))

/-- The continuation a callback queues when it suspends (if any) contains no
`off` call. -/
def pendsNoOff (env : Env) (c : CbId) : Bool :=
  match pendsSync env c with
  | some (_, k) => noOff k
  | none => true

theorem noInvokedOf_spec (b : CbId) (t : List TraceEv)
    (h : noInvokedOf b t = true) (d : Val) (l : Option Val) :
    TraceEv.invoked b d l ∉ t := by
  intro hmem
  have := List.all_eq_true.mp h _ hmem
  simp at this

theorem noResolvedOf_spec (p : PromId) (t : List TraceEv)
    (h : noResolvedOf p t = true) (d : Val) (l : Option Val) :
    TraceEv.resolvedP p d l ∉ t := by
  intro hmem
  have := List.all_eq_true.mp h _ hmem
  simp at this

theorem plainTameB_tameB (env : Env) (c : CbId)
    (h : plainTameB env c = true) : tameB env (env.body c) = true := by
  cases hb : env.body c with
  | plain a => rw [plainTameB, hb] at h; simpa [tameB] using h
  | wrapper hh => rw [plainTameB, hb] at h; simp at h
  | resolver p => rw [plainTameB, hb] at h; simp at h

theorem plainTameB_offsIds (env : Env) (c : CbId)
    (h : plainTameB env c = true) : offsIds env c = [] := by
  cases hb : env.body c with
  | plain a =>
      rw [plainTameB, hb] at h
      simp only [Bool.and_eq_true] at h
      simp [offsIds, hb, noOff_syncOffIds a h.1]
  | wrapper hh => rw [plainTameB, hb] at h; simp at h
  | resolver p => rw [plainTameB, hb] at h; simp at h

theorem plainTameB_pendsNoOff (env : Env) (c : CbId)
    (h : plainTameB env c = true) : pendsNoOff env c = true := by
  cases hb : env.body c with
  | plain a =>
      rw [plainTameB, hb] at h
      simp only [Bool.and_eq_true] at h
      simp only [pendsNoOff, pendsSync, hb]
      cases hres : syncRes a with
      | done => rfl
      | threw e => rfl
      | suspended k => exact noOff_suspended a k h.1 hres
  | wrapper hh => rw [plainTameB, hb] at h; simp at h
  | resolver p => rw [plainTameB, hb] at h; simp at h

theorem tameExcept_spec (env : Env) (w : CbId) (es : List (CbId × Bool))
    (h : tameExcept env w es = true) (j : Nat) (e : CbId × Bool)
    (hj : es[j]? = some e) (hlive : e.2 = true) (hne : e.1 ≠ w) :
    tameB env (env.body e.1) = true := by
  have := List.all_eq_true.mp h e (List.getElem?_mem hj)
  rcases Bool.or_eq_true_iff.mp this with h2 | h2
  · rcases Bool.or_eq_true_iff.mp h2 with h3 | h3
    · rw [hlive] at h3; simp at h3
    · exact absurd (by simpa using h3) hne
  · exact h2

theorem othersPlainTame_spec (env : Env) (w : CbId) (es : List (CbId × Bool))
    (h : othersPlainTame env w es = true) (j : Nat) (e : CbId × Bool)
    (hj : es[j]? = some e) (hlive : e.2 = true) (hne : e.1 ≠ w) :
    plainTameB env e.1 = true := by
  have := List.all_eq_true.mp h e (List.getElem?_mem hj)
  rcases Bool.or_eq_true_iff.mp this with h2 | h2
  · rcases Bool.or_eq_true_iff.mp h2 with h3 | h3
    · rw [hlive] at h3; simp at h3
    · exact absurd (by simpa using h3) hne
  · exact h2

theorem noEntryOf_spec (x : CbId) (es : List (CbId × Bool))
    (h : noEntryOf x es = true) (j : Nat) (e : CbId × Bool)
    (hj : es[j]? = some e) : e.1 ≠ x := by
  have := List.all_eq_true.mp h e (List.getElem?_mem hj)
  simpa using this

theorem tameBelow_spec (env : Env) (es : List (CbId × Bool)) (ja : Nat)
    (h : tameBelow env es ja = true) (j : Nat) (e : CbId × Bool)
    (hjlt : j < ja) (hj : es[j]? = some e) (hlive : e.2 = true) :
    tameB env (env.body e.1) = true := by
  have hmem : e ∈ es.take ja := by
    have h2 : (es.take ja)[j]? = some e := by
      rw [List.getElem?_take, if_pos hjlt]
      exact hj
    exact List.getElem?_mem h2
  have := List.all_eq_true.mp h e hmem
  rcases Bool.or_eq_true_iff.mp this with h2 | h2
  · rw [hlive] at h2; simp at h2
  · exact h2

theorem syncRaise_syncRes (acts : List Act) (e : ErrId)
    (h : syncRaise acts = some e) : syncRes acts = .threw e := by
  induction acts with
  | nil => simp [syncRaise] at h
  | cons a rest ih =>
      cases a with
      | stopProp => simp only [syncRaise] at h; simpa [syncRes] using ih h
      | throwErr x =>
          simp only [syncRaise, Option.some.injEq] at h
          simp [syncRes, h]
      | offCb c => simp only [syncRaise] at h; simpa [syncRes] using ih h
      | suspend => simp [syncRaise] at h

theorem go_pending_noOff (env : Env) (dispId : Nat) (data : Val)
    (lastv : Option Val) (fuel : Nat) :
    ∀ (i : Nat) (s : Quicklime),
      (∀ p ∈ s.pending, noOff p.k = true) →
      (∀ (j : Nat) (e : CbId × Bool), s.entries[j]? = some e → e.2 = true →
        pendsNoOff env e.1 = true) →
      ∀ p ∈ (go env dispId data lastv fuel i s).pending, noOff p.k = true := by
  induction fuel with
  | zero => intro i s hp _ p hmem; exact hp p (by simpa [go] using hmem)
  | succ fuel ih =>
      intro i s hp hent p hmem
      simp only [go] at hmem
      cases hfl : findLive s.entries i with
      | none => rw [hfl] at hmem; exact hp p hmem
      | some jc =>
          obtain ⟨j, cj⟩ := jc
          rw [hfl] at hmem
          simp only at hmem
          obtain ⟨hij, hj⟩ := findLive_sound s.entries i j cj hfl
          have hp' : ∀ q ∈ (invokeCb env dispId cj data lastv s).pending,
              noOff q.k = true := by
            intro q hq
            rw [invokeCb_pending] at hq
            rcases List.mem_append.mp hq with hq | hq
            · exact hp q hq
            · have hcj := hent j (cj, true) hj rfl
              rw [pendsNoOff] at hcj
              simp only [pendsList] at hq
              cases hps : pendsSync env cj with
              | none => rw [hps] at hq; cases hq
              | some ok =>
                  rw [hps] at hq hcj
                  obtain ⟨o, k⟩ := ok
                  simp only [List.mem_singleton] at hq
                  rw [hq]
                  exact hcj
          by_cases hflag : getFlag (invokeCb env dispId cj data lastv s) dispId
          · rw [if_pos hflag] at hmem; exact hp' p hmem
          · rw [if_neg hflag] at hmem
            refine ih (j + 1) _ hp' ?_ p hmem
            intro j' e hj' hlive
            have he : e = (e.1, true) := by rw [← hlive]
            have hback : s.entries[j']? = some (e.1, true) :=
              invokeCb_live_back env dispId cj data lastv s j' e.1 (he ▸ hj')
            exact hent j' e (by rw [he]; exact hback) hlive

theorem dispatch_invoked_view (env : Env) (data : Val) (s : Quicklime)
    (c : CbId) (d : Val) (l : Option Val)
    (h : TraceEv.invoked c d l ∈ (s.dispatch env data).trace) :
    TraceEv.invoked c d l ∈ s.trace ∨ (d = data ∧ l = s.last) := by
  simp only [Quicklime.dispatch] at h
  exact go_invoked_view env s.stopFlags.length data s.last s.entries.length
    0 { s with last := some data, stopFlags := s.stopFlags ++ [false] } c d l h

theorem dispatch_resolvedP_view (env : Env) (data : Val) (s : Quicklime)
    (p : PromId) (d : Val) (l : Option Val)
    (h : TraceEv.resolvedP p d l ∈ (s.dispatch env data).trace) :
    TraceEv.resolvedP p d l ∈ s.trace ∨ (d = data ∧ l = s.last) := by
  simp only [Quicklime.dispatch] at h
  exact go_resolvedP_view env s.stopFlags.length data s.last s.entries.length
    0 { s with last := some data, stopFlags := s.stopFlags ++ [false] } p d l h

theorem precedes_append_right (a b : TraceEv) (t r : List TraceEv)
    (h : precedes a b t = true) : precedes a b (t ++ r) = true := by
  induction t with
  | nil => simp [precedes] at h
  | cons x rest ih =>
      simp only [precedes] at h ⊢
      by_cases hx : x = a
      · rw [if_pos hx] at h ⊢
        simp only [decide_eq_true_eq] at h ⊢
        exact List.mem_append_left _ h
      · rw [if_neg hx] at h ⊢
        exact ih h

theorem precedes_of_mem_split (a b : TraceEv) (t r : List TraceEv)
    (ha : a ∈ t) (hb : b ∉ t) (hbr : b ∈ r) :
    precedes a b (t ++ r) = true := by
  induction t with
  | nil => cases ha
  | cons x rest ih =>
      simp only [precedes]
      by_cases hx : x = a
      · rw [if_pos hx]
        simp only [decide_eq_true_eq]
        exact List.mem_append_right _ hbr
      · rw [if_neg hx]
        exact ih (by rcases List.mem_cons.mp ha with h | h;
                     exact absurd h.symm hx; exact h)
          (fun hm => hb (List.mem_cons_of_mem _ hm))

theorem mem_liveIds_iff (c : CbId) (s : Quicklime) :
    c ∈ liveIds s ↔ ∃ e ∈ s.entries, e.1 = c ∧ e.2 = true := by
  simp only [liveIds, List.mem_map, List.mem_filter]
  constructor
  · rintro ⟨e, ⟨he, hlive⟩, hfst⟩
    exact ⟨e, he, hfst, hlive⟩
  · rintro ⟨e, he, hfst, hlive⟩
    exact ⟨e, ⟨he, hlive⟩, hfst⟩

theorem on_of_mem (c : CbId) (s : Quicklime) (h : c ∈ liveIds s) :
    s.on c = s := by
  obtain ⟨e, he, hfst, hlive⟩ := (mem_liveIds_iff c s).mp h
  have hany : s.entries.any (fun e => e.1 = c && e.2) = true :=
    List.any_eq_true.mpr ⟨e, he, by simp [hfst, hlive]⟩
  simp only [Quicklime.on, addEntry, hany, if_true]

theorem liveIds_on_of_not_mem (c : CbId) (s : Quicklime) (h : c ∉ liveIds s) :
    liveIds (s.on c) = liveIds s ++ [c] := by
  have hany : ¬s.entries.any (fun e => e.1 = c && e.2) = true := by
    intro hx
    obtain ⟨e, he, hpe⟩ := List.any_eq_true.mp hx
    simp only [Bool.and_eq_true, decide_eq_true_eq] at hpe
    exact h ((mem_liveIds_iff c s).mpr ⟨e, he, hpe.1, hpe.2⟩)
  simp only [Quicklime.on, addEntry, hany, if_false]
  simp [liveIds, List.filter_append, List.map_append]

/-- C10: for every dispatcher and handle `h`, `on h` is idempotent —
registering an already-registered handle is a no-op that leaves the whole
dispatcher state (hence the registry's contents and insertion order)
unchanged; registering a fresh handle appends it at the end, so the live
registry never contains duplicates and iteration order equals insertion
order. -/
theorem C10_on_idempotent_registry :
    (∀ (c : CbId) (s : Quicklime), c ∈ liveIds s → s.on c = s) ∧
    (∀ (c : CbId) (s : Quicklime), c ∉ liveIds s →
      liveIds (s.on c) = liveIds s ++ [c]) ∧
    (∀ (c : CbId) (s : Quicklime), (liveIds s).Nodup →
      (liveIds (s.on c)).Nodup) := by
  refine ⟨on_of_mem, liveIds_on_of_not_mem, ?_⟩
  intro c s hnd
  by_cases h : c ∈ liveIds s
  · rw [on_of_mem c s h]; exact hnd
  · rw [liveIds_on_of_not_mem c s h]
    simp only [List.nodup_append, List.nodup_cons, List.nodup_nil,
      List.mem_singleton]
    exact ⟨hnd, by simp, by intro a ha hac; exact h ((List.mem_singleton.mp hac) ▸ ha)⟩

/-- Witness for C10 at a concrete dispatcher: re-registering handle 1 is a
no-op, registering fresh handle 2 appends it, and the live registry stays
duplicate-free. -/
theorem C10_witness :
    (((Quicklime.create none).on 1).on 1 = (Quicklime.create none).on 1) ∧
    liveIds ((Quicklime.create none).on 2) = [2] ∧
    (liveIds (((Quicklime.create none).on 1).on 2)).Nodup := by
  refine ⟨C10_on_idempotent_registry.1 1 _ (by decide), ?_,
    C10_on_idempotent_registry.2.2 2 _ (by decide)⟩
  have h := C10_on_idempotent_registry.2.1 2 (Quicklime.create none) (by decide)
  simpa using h

/-- C5: for every dispatcher and every `dispatch(value)`, `last` is set to
`value` by the dispatch itself (before any callback runs, and regardless of
what the callbacks do — including throwing); every callback invoked in the
dispatch observes in its event view the `last` value from before the
dispatch; and before any dispatch `last` equals the constructor's initial
value. -/
theorem C5_last_update_semantics :
    (∀ (env : Env) (data : Val) (s : Quicklime),
      (s.dispatch env data).last = some data) ∧
    (∀ (env : Env) (data : Val) (s : Quicklime) (c : CbId) (d : Val)
        (l : Option Val),
      TraceEv.invoked c d l ∈ (s.dispatch env data).trace →
      TraceEv.invoked c d l ∈ s.trace ∨ (d = data ∧ l = s.last)) ∧
    (∀ (v : Option Val), (Quicklime.create v).last = v) :=
  ⟨fun env data s => dispatch_last env data s,
   fun env data s c d l h => dispatch_invoked_view env data s c d l h,
   fun _ => rfl⟩

/-- Witness for C5 at a concrete dispatcher: dispatching 5 on a dispatcher
created with initial value 0 and one registered handle. -/
theorem C5_witness :
    ((((Quicklime.create (some 0)).on 1).dispatch
        (Env.mk fun _ => CbBody.plain []) 5).last = some 5) ∧
    (TraceEv.invoked 1 5 (some 0) ∈ ((Quicklime.create (some 0)).on 1).trace ∨
      ((5 : Val) = 5 ∧ (some 0 : Option Val) = some 0)) ∧
    (Quicklime.create (some 3)).last = some 3 :=
  ⟨C5_last_update_semantics.1 (Env.mk fun _ => CbBody.plain []) 5 _,
   C5_last_update_semantics.2.1 (Env.mk fun _ => CbBody.plain []) 5
     (((Quicklime.create (some 0)).on 1)) 1 5 (some 0) (by decide),
   C5_last_update_semantics.2.2 (some 3)⟩

/-- C4: for every dispatch in which one registered callback throws
synchronously, every registered handle — earlier or later in registration
order — is still invoked. That `dispatch` returns normally to its caller is
modelled by `Quicklime.dispatch` being a total function whose only
error-related output is a `sink` trace event: the throw escapes no further
than its own fire-and-forget invocation. -/
theorem C4_throw_does_not_block_siblings :
    ∀ (env : Env) (data : Val) (s : Quicklime) (jt : Nat) (t : CbId)
      (acts : List Act) (e : ErrId),
      s.entries[jt]? = some (t, true) →
      env.body t = CbBody.plain acts →
      syncRaise acts = some e →
      (s.entries.map Prod.fst).Nodup →
      tameSet env s.entries = true →
      ∀ (jb : Nat) (b : CbId), s.entries[jb]? = some (b, true) →
        TraceEv.invoked b data s.last ∈ (s.dispatch env data).trace := by
  intro env data s jt t acts e hjt hb hraise hnd htame jb b hjb
  exact dispatch_invokes_live env data s jb b hjb hnd htame

/-- Environment for the C4 and C1 witnesses: handle 2 throws error 7
synchronously, handles 1 and 3 complete normally. -/
def envThrower : Env :=
  Env.mk fun c => if c = 2 then CbBody.plain [Act.throwErr 7] else CbBody.plain []

/-- Witness for C4: with handles 1, 2 (throws), 3 registered, dispatching 5
invokes all three. -/
theorem C4_witness :
    TraceEv.invoked 1 5 (some 0) ∈
      (((((Quicklime.create (some 0)).on 1).on 2).on 3).dispatch
        envThrower 5).trace ∧
    TraceEv.invoked 2 5 (some 0) ∈
      (((((Quicklime.create (some 0)).on 1).on 2).on 3).dispatch
        envThrower 5).trace ∧
    TraceEv.invoked 3 5 (some 0) ∈
      (((((Quicklime.create (some 0)).on 1).on 2).on 3).dispatch
        envThrower 5).trace := by
  exact ⟨C4_throw_does_not_block_siblings envThrower 5 _ 1 2
      [Act.throwErr 7] 7 (by decide) (by decide) (by decide) (by decide)
      (by decide) 0 1 (by decide),
    C4_throw_does_not_block_siblings envThrower 5 _ 1 2
      [Act.throwErr 7] 7 (by decide) (by decide) (by decide) (by decide)
      (by decide) 1 2 (by decide),
    C4_throw_does_not_block_siblings envThrower 5 _ 1 2
      [Act.throwErr 7] 7 (by decide) (by decide) (by decide) (by decide)
      (by decide) 2 3 (by decide)⟩

/-- C1: for every dispatch and every registered callback whose body throws —
synchronously, or by rejecting after a suspension — the error is caught at
the boundary of that single fire-and-forget invocation and routed to the
diagnostic sink (the host's unhandled-rejection channel) carrying the
original error object, hence its stack trace. It never propagates to
`dispatch`'s caller: `dispatch` and `drain` are total functions and the
error surfaces only as a `sink` trace event. -/
theorem C1_callback_error_routed_to_sink :
    ∀ (env : Env) (data : Val) (s : Quicklime) (jc : Nat) (c : CbId)
      (acts : List Act) (e : ErrId),
      s.entries[jc]? = some (c, true) →
      env.body c = CbBody.plain acts →
      raises acts = some e →
      (s.entries.map Prod.fst).Nodup →
      tameSet env s.entries = true →
      TraceEv.sink e ∈ ((s.dispatch env data).drain).trace := by
  intro env data s jc c acts e hjc hb hraise hnd htame
  have htb : ∀ (j : Nat) (eo : CbId × Bool), j < jc → s.entries[j]? = some eo →
      eo.2 = true → tameB env (env.body eo.1) = true :=
    fun j eo _ hj hl => tameSet_spec env s.entries htame j eo hj hl
  obtain ⟨T, rest, htr, _, _, hpend⟩ := dispatch_reaches env data s
    (fun _ => True) jc c hjc hnd htb (fun _ _ _ _ _ _ _ => trivial)
  simp only [Quicklime.drain]
  rcases raises_syncRes acts e hraise with hres | ⟨k, hres, hk⟩
  · have hsink : TraceEv.sink e ∈ emitsSync env c data s.last := by
      simp [emitsSync, hb, hres]
    apply microtasks_mem_trace
    rw [htr]
    exact List.mem_append_left _ (List.mem_append_right _ hsink)
  · have hpend2 : Pend.mk s.stopFlags.length c k ∈ (s.dispatch env data).pending := by
      apply hpend
      simp [pendsSync, hb, hres]
    exact microtasks_sink _ _ (Pend.mk s.stopFlags.length c k) e hpend2 hk
      (Nat.le_refl _)

/-- Environment for the second half of the C1 witness: handle 1 suspends and
then rejects with error 9. -/
def envLateThrower : Env :=
  Env.mk fun _ => CbBody.plain [Act.suspend, Act.throwErr 9]

/-- Witness for C1: a synchronous throw (error 7, handle 2) and a
post-suspension rejection (error 9) both end up in the sink. -/
theorem C1_witness :
    TraceEv.sink 7 ∈
      ((((((Quicklime.create (some 0)).on 1).on 2).on 3).dispatch
        envThrower 5).drain).trace ∧
    TraceEv.sink 9 ∈
      ((((Quicklime.create none).on 1).dispatch
        envLateThrower 4).drain).trace :=
  ⟨C1_callback_error_routed_to_sink envThrower 5 _ 1 2 [Act.throwErr 7] 7
      (by decide) (by decide) (by decide) (by decide) (by decide),
   C1_callback_error_routed_to_sink envLateThrower 4 _ 0 1
      [Act.suspend, Act.throwErr 9] 9
      (by decide) (by decide) (by decide) (by decide) (by decide)⟩

/-- C3: for every dispatch, if a non-suspending handle at position `jc` of
the registry's iteration order calls `stopPropagation` during its
synchronous execution, then no handle at a position greater than `jc` is
scheduled in that same dispatch: the engine checks the flag right after the
invocation returns and ends the iteration. -/
theorem C3_sync_stop_halts_iteration :
    ∀ (env : Env) (data : Val) (s : Quicklime) (jc : Nat) (c : CbId)
      (acts : List Act),
      s.entries[jc]? = some (c, true) →
      env.body c = CbBody.plain acts →
      noSusp acts = true →
      syncStops acts = true →
      (s.entries.map Prod.fst).Nodup →
      tameBelow env s.entries jc = true →
      (TraceEv.invoked c data s.last ∈ (s.dispatch env data).trace) ∧
      ∀ (jb : Nat) (b : CbId) (lb : Bool), jc < jb →
        s.entries[jb]? = some (b, lb) →
        noInvokedOf b s.trace = true →
        ∀ (d : Val) (l : Option Val),
          TraceEv.invoked b d l ∉ (s.dispatch env data).trace := by
  intro env data s jc c acts hjc hb hnos hstop hnd htb
  constructor
  · obtain ⟨T, rest, htr, _, _, _⟩ := dispatch_reaches env data s
      (fun _ => True) jc c hjc hnd
      (fun j e hlt hj hl => tameBelow_spec env s.entries jc htb j e hlt hj hl)
      (fun _ _ _ _ _ _ _ => trivial)
    rw [htr]
    apply List.mem_append_left
    apply List.mem_append_right
    simp [emitsSync]
  · intro jb b lb hlt hjb hfresh d l
    simp only [Quicklime.dispatch]
    exact go_stopper env s.stopFlags.length data s.last b s.entries.length 0
      { s with last := some data, stopFlags := s.stopFlags ++ [false] } jc c
      (Nat.zero_le _) hjc (by simp [stopsSync, hb, hstop]) (by simp) hnd
      (fun j e hjlt hj hl => tameBelow_spec env s.entries jc htb j e hjlt hj hl)
      (by
        intro j e hj hfst
        by_cases hjeq : j = jb
        · omega
        · exfalso
          exact nodup_fst_ne s.entries hnd j jb e (b, lb) hj hjb hjeq
            (by simp [hfst]))
      (fun d' l' => noInvokedOf_spec b s.trace hfresh d' l') d l

/-- Environment for the C3 and C6 witnesses: handle 1 stops propagation
(synchronously for C3), handle 2 is a spy that completes normally. -/
def envStopper : Env :=
  Env.mk fun c => if c = 1 then CbBody.plain [Act.stopProp] else CbBody.plain []

/-- Witness for C3: handle 1 stops propagation synchronously, so the spy
(handle 2, registered after it) is not invoked in that dispatch. -/
theorem C3_witness :
    TraceEv.invoked 1 5 none ∈
      ((((Quicklime.create none).on 1).on 2).dispatch envStopper 5).trace ∧
    TraceEv.invoked 2 5 none ∉
      ((((Quicklime.create none).on 1).on 2).dispatch envStopper 5).trace := by
  have h := C3_sync_stop_halts_iteration envStopper 5
    (((Quicklime.create none).on 1).on 2) 0 1 [Act.stopProp]
    (by decide) (by decide) (by decide) (by decide) (by decide) (by decide)
  exact ⟨h.1, h.2 1 2 true (by decide) (by decide) (by decide) 5 none⟩

/-- C8: the engine iterates the live registry, not a snapshot. With handles
`a` (position `ia`), `b` (position `ib`, which synchronously `off`s both the
earlier, already-invoked `a` and the later, not-yet-reached `x`), and `x`
(position `ix`): `a` is still invoked (its removal comes after its
invocation) and the removal call really happens, while `x` — removed before
the iterator reaches it — is never invoked in that dispatch. -/
theorem C8_live_registry_iteration :
    ∀ (env : Env) (data : Val) (s : Quicklime) (ia ib ix : Nat)
      (a b x : CbId) (actsB : List Act),
      ia < ib → ib < ix →
      s.entries[ia]? = some (a, true) →
      s.entries[ib]? = some (b, true) →
      s.entries[ix]? = some (x, true) →
      env.body b = CbBody.plain actsB →
      a ∈ syncOffIds actsB →
      x ∈ syncOffIds actsB →
      (s.entries.map Prod.fst).Nodup →
      tameExcept env b s.entries = true →
      noInvokedOf x s.trace = true →
      (TraceEv.invoked a data s.last ∈ (s.dispatch env data).trace) ∧
      (TraceEv.offEv a ∈ (s.dispatch env data).trace) ∧
      (∀ (d : Val) (l : Option Val),
        TraceEv.invoked x d l ∉ (s.dispatch env data).trace) := by
  intro env data s ia ib ix a b x actsB hab hbx hia hib hix hbodyB hoffA hoffX
    hnd htame hfresh
  have hneb : ∀ (j : Nat) (e : CbId × Bool), j ≠ ib → s.entries[j]? = some e →
      e.1 ≠ b := by
    intro j e hjne hj
    exact nodup_fst_ne s.entries hnd j ib e (b, true) hj hib hjne
  have htameBelow : ∀ (jmax : Nat), jmax ≤ ib →
      ∀ (j : Nat) (e : CbId × Bool), j < jmax → s.entries[j]? = some e →
        e.2 = true → tameB env (env.body e.1) = true := by
    intro jmax hle j e hjlt hj hl
    exact tameExcept_spec env b s.entries htame j e hj hl
      (hneb j e (by omega) hj)
  refine ⟨?_, ?_, ?_⟩
  · obtain ⟨T, rest, htr, _, _, _⟩ := dispatch_reaches env data s
      (fun _ => True) ia a hia hnd
      (htameBelow ia (by omega)) (fun _ _ _ _ _ _ _ => trivial)
    rw [htr]
    apply List.mem_append_left
    apply List.mem_append_right
    simp [emitsSync]
  · obtain ⟨T, rest, htr, _, _, _⟩ := dispatch_reaches env data s
      (fun _ => True) ib b hib hnd
      (htameBelow ib (by omega)) (fun _ _ _ _ _ _ _ => trivial)
    rw [htr]
    apply List.mem_append_left
    apply List.mem_append_right
    simp only [emitsSync, hbodyB]
    apply List.mem_cons_of_mem
    exact List.mem_append_left _ (offEv_mem_syncOffEvs actsB a hoffA)
  · intro d l
    simp only [Quicklime.dispatch]
    exact go_off_skips env s.stopFlags.length data s.last x s.entries.length 0
      { s with last := some data, stopFlags := s.stopFlags ++ [false] } ib b
      (Nat.zero_le _) hib (by simp [offsIds, hbodyB, hoffX])
      (fun j e hjlt hj hl =>
        tameB_selfOffOnly env e.1
          (tameExcept_spec env b s.entries htame j e hj hl
            (hneb j e (by omega) hj)))
      hnd
      (by
        intro j e hj hfst
        by_cases hjeq : j = ix
        · omega
        · exfalso
          exact nodup_fst_ne s.entries hnd j ix e (x, true) hj hix hjeq
            (by simp [hfst]))
      (fun d' l' => noInvokedOf_spec x s.trace hfresh d' l') d l

/-- Environment for the C8 witness: handle 2 `off`s handle 1 (earlier) and
handle 3 (later); handles 1 and 3 complete normally. -/
def envMutator : Env :=
  Env.mk fun c =>
    if c = 2 then CbBody.plain [Act.offCb 1, Act.offCb 3] else CbBody.plain []

/-- Witness for C8: with handles 1, 2, 3 registered, handle 1 is invoked and
then removed by handle 2, while handle 3 is removed before being reached and
never invoked. -/
theorem C8_witness :
    TraceEv.invoked 1 5 none ∈
      (((((Quicklime.create none).on 1).on 2).on 3).dispatch envMutator 5).trace ∧
    TraceEv.offEv 1 ∈
      (((((Quicklime.create none).on 1).on 2).on 3).dispatch envMutator 5).trace ∧
    TraceEv.invoked 3 5 none ∉
      (((((Quicklime.create none).on 1).on 2).on 3).dispatch envMutator 5).trace := by
  have h := C8_live_registry_iteration envMutator 5
    ((((Quicklime.create none).on 1).on 2).on 3) 0 1 2 1 2 3
    [Act.offCb 1, Act.offCb 3] (by decide) (by decide) (by decide) (by decide)
    (by decide) (by decide) (by decide) (by decide) (by decide) (by decide)
    (by decide)
  exact ⟨h.1, h.2.1, h.2.2 5 none⟩

theorem plainTameSet_spec (env : Env) (es : List (CbId × Bool))
    (h : plainTameSet env es = true) (j : Nat) (e : CbId × Bool)
    (hj : es[j]? = some e) (hlive : e.2 = true) : plainTameB env e.1 = true := by
  have := List.all_eq_true.mp h e (List.getElem?_mem hj)
  rcases Bool.or_eq_true_iff.mp this with h2 | h2
  · rw [hlive] at h2; simp at h2
  · rw [plainTameB]
    exact h2

theorem dispatch_pending_noOff (env : Env) (data : Val) (s : Quicklime)
    (hp : s.pending = [])
    (hent : ∀ (j : Nat) (e : CbId × Bool), s.entries[j]? = some e →
      e.2 = true → pendsNoOff env e.1 = true) :
    ∀ p ∈ (s.dispatch env data).pending, noOff p.k = true := by
  simp only [Quicklime.dispatch]
  exact go_pending_noOff env s.stopFlags.length data s.last s.entries.length 0
    { s with last := some data, stopFlags := s.stopFlags ++ [false] }
    (by intro p hmem; rw [hp] at hmem; cases hmem) hent

/-- C6: a `stopPropagation` issued only after its handle has suspended has
no effect on which handles the dispatch schedules: every live handle is
still invoked in that dispatch; draining the microtask queue (which runs the
suspended continuation, including its late `stopPropagation`) schedules no
handle at all; and a subsequent dispatch — whose loop reads a fresh
dispatch-local flag — again invokes every live handle. -/
theorem C6_late_stop_has_no_effect :
    ∀ (env : Env) (data data2 : Val) (s : Quicklime) (j0 : Nat) (c0 : CbId)
      (acts k : List Act),
      s.entries[j0]? = some (c0, true) →
      env.body c0 = CbBody.plain acts →
      syncRes acts = RunRes.suspended k →
      Act.stopProp ∈ k →
      (s.entries.map Prod.fst).Nodup →
      plainTameSet env s.entries = true →
      s.pending = [] →
      (∀ (jb : Nat) (b : CbId), s.entries[jb]? = some (b, true) →
        TraceEv.invoked b data s.last ∈ (s.dispatch env data).trace) ∧
      (∀ (c : CbId) (d : Val) (l : Option Val),
        TraceEv.invoked c d l ∉ (s.dispatch env data).trace →
        TraceEv.invoked c d l ∉ ((s.dispatch env data).drain).trace) ∧
      (∀ (jb : Nat) (b : CbId), s.entries[jb]? = some (b, true) →
        TraceEv.invoked b data2 (some data) ∈
          ((((s.dispatch env data).drain).dispatch env data2)).trace) := by
  intro env data data2 s j0 c0 acts k hj0 hb0 hres hstop hnd hpts hpend
  have htame : tameSet env s.entries = true := plainTameSet_tameSet env _ hpts
  have hent1 : (s.dispatch env data).entries = s.entries :=
    dispatch_entries_id env data s
      (fun j e hj hl => plainTameSet_offsIds env s.entries hpts j e hj hl)
  have hpno : ∀ p ∈ (s.dispatch env data).pending, noOff p.k = true :=
    dispatch_pending_noOff env data s hpend
      (fun j e hj hl =>
        plainTameB_pendsNoOff env e.1 (plainTameSet_spec env s.entries hpts j e hj hl))
  have hent2 : ((s.dispatch env data).drain).entries = s.entries := by
    simp only [Quicklime.drain]
    rw [microtasks_entries_of_noOff _ _ hpno]
    exact hent1
  have hlast2 : ((s.dispatch env data).drain).last = some data := by
    simp only [Quicklime.drain]
    rw [microtasks_last]
    exact dispatch_last env data s
  refine ⟨?_, ?_, ?_⟩
  · intro jb b hjb
    exact dispatch_invokes_live env data s jb b hjb hnd htame
  · intro c d l hno
    simp only [Quicklime.drain]
    exact microtasks_no_invoked _ _ c d l hno
  · intro jb b hjb
    have := dispatch_invokes_live env data2 ((s.dispatch env data).drain) jb b
      (by rw [hent2]; exact hjb) (by rw [hent2]; exact hnd)
      (by rw [hent2]; exact htame)
    rwa [hlast2] at this

/-- Environment for the C6 witness: handle 1 suspends and only then calls
`stopPropagation`; handle 2 is a spy. -/
def envLateStopper : Env :=
  Env.mk fun c =>
    if c = 1 then CbBody.plain [Act.suspend, Act.stopProp] else CbBody.plain []

/-- Witness for C6: the spy (handle 2) is still invoked in the same
dispatch, the drain schedules nothing new, and a second dispatch invokes
both handles again despite the stale flag set by the late
`stopPropagation`. -/
theorem C6_witness :
    TraceEv.invoked 2 5 none ∈
      ((((Quicklime.create none).on 1).on 2).dispatch envLateStopper 5).trace ∧
    TraceEv.invoked 3 7 none ∉
      (((((Quicklime.create none).on 1).on 2).dispatch
        envLateStopper 5).drain).trace ∧
    TraceEv.invoked 2 9 (some 5) ∈
      ((((((Quicklime.create none).on 1).on 2).dispatch
        envLateStopper 5).drain).dispatch envLateStopper 9).trace := by
  have h := C6_late_stop_has_no_effect envLateStopper 5 9
    (((Quicklime.create none).on 1).on 2) 0 1 [Act.suspend, Act.stopProp]
    [Act.stopProp] (by decide) (by decide) (by decide) (by decide) (by decide)
    (by decide) (by decide)
  exact ⟨h.1 1 2 (by decide), h.2.1 3 7 none (by decide), h.2.2 1 2 (by decide)⟩

/-- C9: `next()` registers (via `on`) a fresh handle that resolves a fresh
promise with the event view of the next dispatch: after `p := next()`, a
subsequent `dispatch x` resolves `p` with `{data := x, last := the
dispatcher's last value from before that dispatch}` — and every resolution
of `p` produced by that dispatch carries exactly that event view. -/
theorem C9_next_settles_with_next_dispatch :
    ∀ (env : Env) (x : Val) (s : Quicklime) (r : CbId) (p : PromId),
      env.body r = CbBody.resolver p →
      r ∉ s.entries.map Prod.fst →
      (s.entries.map Prod.fst).Nodup →
      tameSet env s.entries = true →
      noResolvedOf p s.trace = true →
      (TraceEv.resolvedP p x s.last ∈ ((s.next r).dispatch env x).trace) ∧
      (∀ (d : Val) (l : Option Val),
        TraceEv.resolvedP p d l ∈ ((s.next r).dispatch env x).trace →
        d = x ∧ l = s.last) := by
  intro env x s r p hbody hfreshr hnd htame hfresh
  have hany : ¬s.entries.any (fun e => e.1 = r && e.2) = true := by
    intro hx
    obtain ⟨e, he, hpe⟩ := List.any_eq_true.mp hx
    simp only [Bool.and_eq_true, decide_eq_true_eq] at hpe
    exact hfreshr (hpe.1 ▸ List.mem_map_of_mem Prod.fst he)
  have hent : (s.next r).entries = s.entries ++ [(r, true)] := by
    simp only [Quicklime.next, Quicklime.on, addEntry]
    rw [if_neg hany]
  have hja : (s.next r).entries[s.entries.length]? = some (r, true) := by
    rw [hent]
    exact List.getElem?_concat_length s.entries (r, true)
  have hnd1 : ((s.next r).entries.map Prod.fst).Nodup := by
    rw [hent, List.map_append]
    simp only [List.map_cons, List.map_nil]
    rw [List.nodup_append]
    refine ⟨hnd, List.nodup_singleton r, ?_⟩
    intro a ha har
    rw [List.mem_singleton] at har
    exact hfreshr (har ▸ ha)
  have htb : ∀ (j : Nat) (e : CbId × Bool), j < s.entries.length →
      (s.next r).entries[j]? = some e → e.2 = true →
      tameB env (env.body e.1) = true := by
    intro j e hjlt hj hl
    rw [hent, List.getElem?_append_left hjlt] at hj
    exact tameSet_spec env s.entries htame j e hj hl
  constructor
  · obtain ⟨T, rest, htr, _, _, _⟩ := dispatch_reaches env x (s.next r)
      (fun _ => True) s.entries.length r hja hnd1 htb
      (fun _ _ _ _ _ _ _ => trivial)
    rw [htr]
    apply List.mem_append_left
    apply List.mem_append_right
    simp [emitsSync, hbody, Quicklime.next, Quicklime.on]
  · intro d l hmem
    rcases dispatch_resolvedP_view env x (s.next r) p d l hmem with h | h
    · exfalso
      exact noResolvedOf_spec p s.trace hfresh d l h
    · exact h

/-- Environment for the C9 witness: handle 4 is the resolver registered by
`next` for promise 9; handle 0 is a previously registered tame handle. -/
def envResolver : Env :=
  Env.mk fun c => if c = 4 then CbBody.resolver 9 else CbBody.plain []

/-- Witness for C9: with prior `last = 1` and dispatching the value 5, the
promise is resolved with `{data := 5, last := some 1}`. -/
theorem C9_witness :
    TraceEv.resolvedP 9 5 (some 1) ∈
      ((((Quicklime.create (some 1)).on 0).next 4).dispatch envResolver 5).trace ∧
    ((5 : Val) = 5 ∧ (some 1 : Option Val) = some 1) := by
  have h := C9_next_settles_with_next_dispatch envResolver 5
    ((Quicklime.create (some 1)).on 0) 4 9 (by decide) (by decide) (by decide)
    (by decide) (by decide)
  exact ⟨h.1, h.2 5 (some 1) h.1⟩

/-- C7: if the callback wrapped by `once` throws synchronously on its first
invocation, the wrapper's `off(wrapper)` line is never reached: the error is
sunk, the wrapper entry stays live in the registry, and the wrapper is
invoked again on the next dispatch. -/
theorem C7_once_wrapper_survives_sync_throw :
    ∀ (env : Env) (d1 d2 : Val) (s : Quicklime) (jw : Nat) (w h : CbId)
      (acts : List Act) (e : ErrId),
      env.body w = CbBody.wrapper h →
      env.body h = CbBody.plain acts →
      syncRaise acts = some e →
      noOff acts = true →
      syncStops acts = false →
      s.entries[jw]? = some (w, true) →
      (s.entries.map Prod.fst).Nodup →
      othersPlainTame env w s.entries = true →
      s.pending = [] →
      (TraceEv.sink e ∈ (s.dispatch env d1).trace) ∧
      (((s.dispatch env d1).drain).entries[jw]? = some (w, true)) ∧
      (TraceEv.invoked w d2 (some d1) ∈
        ((((s.dispatch env d1).drain)).dispatch env d2).trace) := by
  intro env d1 d2 s jw w h acts e hbw hbh hraise hnooff hnostop hjw hnd hopt hpend
  have hinner : innerActs env h = acts := by simp [innerActs, hbh]
  have hresT : syncRes acts = RunRes.threw e := syncRaise_syncRes acts e hraise
  have htw : tameB env (env.body w) = true := by
    rw [hbw]
    simp [tameB, hinner, hnooff, hnostop]
  have htame : tameSet env s.entries = true := by
    apply List.all_eq_true.mpr
    intro eo hmem
    apply Bool.or_eq_true_iff.mpr
    by_cases hl : eo.2 = true
    · right
      by_cases hw : eo.1 = w
      · rw [hw]; exact htw
      · have h2 := List.all_eq_true.mp hopt eo hmem
        rcases Bool.or_eq_true_iff.mp h2 with h3 | h3
        · rcases Bool.or_eq_true_iff.mp h3 with h4 | h4
          · rw [hl] at h4; simp at h4
          · exact absurd (by simpa using h4) hw
        · exact plainTameB_tameB env eo.1 (by rw [plainTameB]; exact h3)
    · left; simp [Bool.eq_false_iff.mpr hl]
  have hoffw : offsIds env w = [] := by
    simp [offsIds, hbw, hinner, hresT, noOff_syncOffIds acts hnooff]
  have hoffall : ∀ (j : Nat) (eo : CbId × Bool), s.entries[j]? = some eo →
      eo.2 = true → offsIds env eo.1 = [] := by
    intro j eo hj hl
    by_cases hw : eo.1 = w
    · rw [hw]; exact hoffw
    · exact plainTameB_offsIds env eo.1
        (othersPlainTame_spec env w s.entries hopt j eo hj hl hw)
  have hent1 : (s.dispatch env d1).entries = s.entries :=
    dispatch_entries_id env d1 s hoffall
  have hpno : ∀ p ∈ (s.dispatch env d1).pending, noOff p.k = true := by
    apply dispatch_pending_noOff env d1 s hpend
    intro j eo hj hl
    by_cases hw : eo.1 = w
    · rw [hw]
      simp [pendsNoOff, pendsSync, hbw, hinner, hresT]
    · exact plainTameB_pendsNoOff env eo.1
        (othersPlainTame_spec env w s.entries hopt j eo hj hl hw)
  have hent2 : ((s.dispatch env d1).drain).entries = s.entries := by
    simp only [Quicklime.drain]
    rw [microtasks_entries_of_noOff _ _ hpno]
    exact hent1
  have hlast2 : ((s.dispatch env d1).drain).last = some d1 := by
    simp only [Quicklime.drain]
    rw [microtasks_last]
    exact dispatch_last env d1 s
  refine ⟨?_, ?_, ?_⟩
  · obtain ⟨T, rest, htr, _, _, _⟩ := dispatch_reaches env d1 s
      (fun _ => True) jw w hjw hnd
      (fun j eo _ hj hl => tameSet_spec env s.entries htame j eo hj hl)
      (fun _ _ _ _ _ _ _ => trivial)
    rw [htr]
    apply List.mem_append_left
    apply List.mem_append_right
    simp [emitsSync, hbw, hinner, hresT]
  · rw [hent2]; exact hjw
  · have := dispatch_invokes_live env d2 ((s.dispatch env d1).drain) jw w
      (by rw [hent2]; exact hjw) (by rw [hent2]; exact hnd)
      (by rw [hent2]; exact htame)
    rwa [hlast2] at this

/-- Environment for the C7 and C2 counterexample scenarios: handle 0 is the
`once` wrapper around handle 1. For C7 handle 1 throws error 3
synchronously. -/
def envOnceThrow : Env :=
  Env.mk fun c =>
    if c = 0 then CbBody.wrapper 1 else CbBody.plain [Act.throwErr 3]

/-- Witness for C7: the wrapper (handle 0) around the throwing handle 1
stays registered after the first dispatch and is invoked again by the
second. -/
theorem C7_witness :
    TraceEv.sink 3 ∈ (((Quicklime.create none).once 0).dispatch envOnceThrow 5).trace ∧
    ((((Quicklime.create none).once 0).dispatch envOnceThrow 5).drain).entries[0]? =
      some (0, true) ∧
    TraceEv.invoked 0 9 (some 5) ∈
      (((((Quicklime.create none).once 0).dispatch
        envOnceThrow 5).drain).dispatch envOnceThrow 9).trace := by
  have h := C7_once_wrapper_survives_sync_throw envOnceThrow 5 9
    ((Quicklime.create none).once 0) 0 0 1 [Act.throwErr 3] 3
    (by decide) (by decide) (by decide) (by decide) (by decide) (by decide)
    (by decide) (by decide) (by decide)
  exact h

theorem precedes_prepend (a b : TraceEv) (pre t : List TraceEv)
    (hpre : ∀ ev ∈ pre, ev ≠ a) (h : precedes a b t = true) :
    precedes a b (pre ++ t) = true := by
  induction pre with
  | nil => exact h
  | cons x rest ih =>
      simp only [List.cons_append, precedes]
      rw [if_neg (hpre x (List.mem_cons_self _ _))]
      exact ih (fun ev hev => hpre ev (List.mem_cons_of_mem _ hev))

/-- Environment for the C2 counterexample: handle 0 is the `once` wrapper
around handle 1, whose body suspends (and then completes). -/
def envOnceSusp : Env :=
  Env.mk fun c => if c = 0 then CbBody.wrapper 1 else CbBody.plain [Act.suspend]

/-- The full trace of `once(h); dispatch 5` followed by draining the
microtask queue, with `h` a suspending handle, in the C2 counterexample
scenario. -/
def c2trace : List TraceEv :=
  ((((Quicklime.create none).once 0).dispatch envOnceSusp 5).drain).trace

/-- Counterexample for C2 as stated: with a suspending inner handle, the
wrapper registered by `once` is invoked, its inner handle is called and does
complete eventually — yet no occurrence of the inner handle's completion
precedes the wrapper's self-removal: the wrapper removes itself without
awaiting, before the inner handle's behaviour has run to completion. -/
theorem C2_counterexample :
    TraceEv.innerInvoked 1 5 none ∈ c2trace ∧
    TraceEv.offEv 0 ∈ c2trace ∧
    TraceEv.completed 1 ∈ c2trace ∧
    precedes (TraceEv.completed 1) (TraceEv.offEv 0) c2trace = false := by
  decide

/-- C2 (amended): the wrapper generated by `once`, on its first invocation,
first runs the wrapped handle's synchronous portion and then removes itself
immediately, without awaiting any suspension: when the inner handle runs to
completion synchronously, its completion precedes the wrapper's
self-removal; but when the inner handle suspends, the wrapper's self-removal
precedes the inner handle's completion, which lands only when the microtask
queue drains. -/
theorem C2_once_removes_without_awaiting :
    ∀ (env : Env) (data : Val) (s : Quicklime) (jw : Nat) (w h : CbId)
      (acts : List Act),
      env.body w = CbBody.wrapper h →
      env.body h = CbBody.plain acts →
      s.entries[jw]? = some (w, true) →
      (s.entries.map Prod.fst).Nodup →
      w ≠ h →
      noEntryOf h s.entries = true →
      othersPlainTame env w s.entries = true →
      noOff acts = true →
      syncStops acts = false →
      s.pending = [] →
      TraceEv.completed h ∉ s.trace →
      ((syncRes acts = RunRes.done →
        precedes (TraceEv.completed h) (TraceEv.offEv w)
          ((s.dispatch env data).trace) = true) ∧
       (∀ (k : List Act), syncRes acts = RunRes.suspended k →
        raises acts = none →
        precedes (TraceEv.offEv w) (TraceEv.completed h)
          (((s.dispatch env data).drain).trace) = true)) := by
  intro env data s jw w h acts hbw hbh hjw hnd hwh hnoh hopt hnooff hnostop
    hpend0 hfreshch
  have hinner : innerActs env h = acts := by simp [innerActs, hbh]
  have htw : tameB env (env.body w) = true := by
    rw [hbw]
    simp [tameB, hinner, hnooff, hnostop]
  have htb : ∀ (j : Nat) (eo : CbId × Bool), j < jw → s.entries[j]? = some eo →
      eo.2 = true → tameB env (env.body eo.1) = true := by
    intro j eo _ hj hl
    by_cases hw : eo.1 = w
    · rw [hw]; exact htw
    · exact plainTameB_tameB env eo.1
        (othersPlainTame_spec env w s.entries hopt j eo hj hl hw)
  have hP : ∀ (j : Nat) (eo : CbId × Bool), s.entries[j]? = some eo →
      eo.2 = true → eo.1 ≠ w →
      ∀ ev ∈ emitsSync env eo.1 data s.last, ev ≠ TraceEv.completed h := by
    intro j eo hj hl hw ev hev heq
    subst heq
    rcases emitsSync_completed_inv env eo.1 data s.last h hev with h2 | h2
    · exact noEntryOf_spec h s.entries hnoh j eo hj h2.symm
    · have h3 := othersPlainTame_spec env w s.entries hopt j eo hj hl hw
      rw [plainTameB, h2] at h3
      simp at h3
  obtain ⟨T, rest, htr, hPT, hPrest, hpend⟩ := dispatch_reaches env data s
    (fun ev => ev ≠ TraceEv.completed h) jw w hjw hnd htb hP
  have hpreP : ∀ ev ∈ s.trace ++ T, ev ≠ TraceEv.completed h := by
    intro ev hev heq
    subst heq
    rcases List.mem_append.mp hev with h2 | h2
    · exact hfreshch h2
    · exact hPT _ h2 rfl
  constructor
  · intro hdone
    have hemits : precedes (TraceEv.completed h) (TraceEv.offEv w)
        (emitsSync env w data s.last) = true := by
      simp [emitsSync, hbw, hinner, hdone, noOff_syncOffEvs acts hnooff,
        precedes]
    rw [htr,
      List.append_assoc (s.trace ++ T) (emitsSync env w data s.last) rest]
    exact precedes_prepend _ _ _ _ hpreP
      (precedes_append_right _ _ _ _ hemits)
  · intro k hsusp hrnone
    have hoffmem : TraceEv.offEv w ∈ (s.dispatch env data).trace := by
      rw [htr]
      apply List.mem_append_left
      apply List.mem_append_right
      simp [emitsSync, hbw, hinner, hsusp, noOff_syncOffEvs acts hnooff]
    have hnoch1 : TraceEv.completed h ∉ (s.dispatch env data).trace := by
      rw [htr]
      intro hmem
      rcases List.mem_append.mp hmem with hmem | hmem
      · rcases List.mem_append.mp hmem with hmem | hmem
        · exact hpreP _ hmem rfl
        · revert hmem
          simp [emitsSync, hbw, hinner, hsusp, noOff_syncOffEvs acts hnooff,
            Ne.symm hwh]
      · exact hPrest _ hmem rfl
    have hrk : raises k = none := by
      rcases raises_none_syncRes acts hrnone with h2 | ⟨k2, h2, h3⟩
      · rw [h2] at hsusp; exact RunRes.noConfusion hsusp
      · rw [h2] at hsusp
        have : k2 = k := by
          exact (RunRes.suspended.injEq _ _).mp hsusp
        rw [← this]; exact h3
    have hitem : Pend.mk s.stopFlags.length h k ∈ (s.dispatch env data).pending := by
      apply hpend
      simp [pendsSync, hbw, hinner, hsusp]
    have hch2 : TraceEv.completed h ∈ (((s.dispatch env data)).drain).trace := by
      simp only [Quicklime.drain]
      exact microtasks_completes _ _ (Pend.mk s.stopFlags.length h k) hitem hrk
        (Nat.le_refl _)
    obtain ⟨t, ht⟩ : ∃ t, (((s.dispatch env data)).drain).trace =
        (s.dispatch env data).trace ++ t := by
      simp only [Quicklime.drain]
      exact microtasks_trace_mono _ _
    rw [ht]
    apply precedes_of_mem_split _ _ _ _ hoffmem hnoch1
    rw [ht] at hch2
    rcases List.mem_append.mp hch2 with h2 | h2
    · exact absurd h2 hnoch1
    · exact h2

/-- Environment for the first half of the C2 witness: handle 0 is the `once`
wrapper around handle 1, whose body completes synchronously. -/
def envOnceDone : Env :=
  Env.mk fun c => if c = 0 then CbBody.wrapper 1 else CbBody.plain []

/-- Witness for the amended C2: with a synchronously completing inner
handle, completion precedes self-removal; with a suspending inner handle,
self-removal precedes completion. -/
theorem C2_witness :
    precedes (TraceEv.completed 1) (TraceEv.offEv 0)
      ((((Quicklime.create none).once 0).dispatch envOnceDone 5).trace) = true ∧
    precedes (TraceEv.offEv 0) (TraceEv.completed 1)
      (((((Quicklime.create none).once 0).dispatch
        envOnceSusp 5).drain).trace) = true :=
  ⟨(C2_once_removes_without_awaiting envOnceDone 5 ((Quicklime.create none).once 0)
      0 0 1 [] (by decide) (by decide) (by decide) (by decide) (by decide)
      (by decide) (by decide) (by decide) (by decide) (by decide)
      (by decide)).1 (by decide),
   (C2_once_removes_without_awaiting envOnceSusp 5 ((Quicklime.create none).once 0)
      0 0 1 [Act.suspend] (by decide) (by decide) (by decide) (by decide)
      (by decide) (by decide) (by decide) (by decide) (by decide) (by decide)
      (by decide)).2 [] (by decide) (by decide)⟩
